import Mathlib

/-!
# Shallow embedding of `cache_replacement.py` (TLCA-ACR cache)

The Python class `TLCA_ACR_Cache` keeps three insertion-ordered dictionaries
(`cache`, `access_freq`, `last_access`), weight coefficients, and three
injectable scoring callbacks.  We model:

* Python `dict` as an insertion-ordered association list with the usual
  first-match lookup, in-place update (append at the end for a fresh key),
  and removal of the (unique) matching entry;
* `defaultdict(int)` lookups as `dGetDefault0`, which *mutates* the map by
  appending a `(key, 0)` entry when the key is missing — exactly the Python
  behaviour that makes `compute_score` on a missing key mutate state before
  raising;
* floating point numbers as `ℚ` (the algorithmic structure — comparisons,
  the `1e-5` tolerance, the reciprocal recency bonus — is preserved);
* wall-clock reads (`time.time()`, `time.localtime().tm_hour`) as explicit
  `now`/`hr` arguments threaded through each operation;
* the `KeyError` raised by `self.last_access[key]` on a missing key as an
  `Option` result carrying the (already mutated) state.
-/

set_option maxHeartbeats 1000000

namespace TLCAACR

/-- The `1e-5` constant of the source (`+ 1e-5` in the recency denominator and
the eviction tie tolerance `abs(score - min_score) < 1e-5`). -/
def tol : ℚ := 1/100000

variable {K V A : Type} [DecidableEq K]

/-- Python `d[k]` read on an ordinary dict: first (unique) matching entry. -/
def dGet : List (K × A) → K → Option A
  | [], _ => none
  | (k', a) :: rest, k => if k' = k then some a else dGet rest k

/-- Python `d[k] = a`: update in place if present, else append at the end
(insertion order). -/
def dSet : List (K × A) → K → A → List (K × A)
  | [], k, a => [(k, a)]
  | (k', a') :: rest, k, a =>
    if k' = k then (k', a) :: rest else (k', a') :: dSet rest k a

/-- Python `del d[k]` / `d.pop(k, None)`: drop the (unique) matching entry. -/
def dDel : List (K × A) → K → List (K × A)
  | [], _ => []
  | (k', a') :: rest, k => if k' = k then rest else (k', a') :: dDel rest k

/-- Python `defaultdict(int)` read `d[k]`: returns the stored value, or
inserts `(k, 0)` (at the end) and returns `0`.  The second component is the
possibly-mutated map. -/
def dGetDefault0 (l : List (K × Nat)) (k : K) : Nat × List (K × Nat) :=
  match dGet l k with
  | some a => (a, l)
  | none => (0, l ++ [(k, 0)])

/-- The cache state of `TLCA_ACR_Cache.__init__`: capacity, the five weights,
the three dictionaries, and the three injectable callbacks. -/
structure TLCA_ACR_Cache (K V : Type) where
  capacity : Nat
  alpha : ℚ
  beta : ℚ
  gamma : ℚ
  delta : ℚ
  epsilon : ℚ
  /-- Field `self.cache`: key ↦ (value, insertion time). -/
  cache : List (K × V × ℚ)
  /-- Field `self.access_freq`: a `defaultdict(int)`. -/
  access_freq : List (K × Nat)
  /-- Field `self.last_access`. -/
  last_access : List (K × ℚ)
  context_fn : Unit → ℚ
  time_fn : ℚ → ℚ
  loc_fn : ℚ → ℚ → ℚ

namespace TLCA_ACR_Cache

/-- Constructor `TLCA_ACR_Cache(capacity, alpha, beta, gamma, delta, epsilon)`:
empty dictionaries, constant-`1.0` default callbacks. -/
def mkCache (K V : Type) (capacity : Nat) (alpha beta gamma delta epsilon : ℚ) :
    TLCA_ACR_Cache K V :=
  { capacity := capacity, alpha := alpha, beta := beta, gamma := gamma,
    delta := delta, epsilon := epsilon,
    cache := [], access_freq := [], last_access := [],
    context_fn := fun _ => 1, time_fn := fun _ => 1, loc_fn := fun _ _ => 1 }

/-- Method `set_context_functions(context_fn, time_fn, loc_fn)`: replace any subset
of the callbacks (`None` keeps the current one). -/
def set_context_functions (c : TLCA_ACR_Cache K V) (cf : Option (Unit → ℚ))
    (tf : Option (ℚ → ℚ)) (lf : Option (ℚ → ℚ → ℚ)) : TLCA_ACR_Cache K V :=
  { c with context_fn := cf.getD c.context_fn,
           time_fn := tf.getD c.time_fn,
           loc_fn := lf.getD c.loc_fn }

/-- Method `compute_score(key, t, loc)`.  Evaluation order follows the source:
the `defaultdict` read of `access_freq[key]` happens (and may mutate the
map) before the plain read of `last_access[key]`, which raises `KeyError`
(modelled as `none`) when the key is missing.  The time argument is
`t or time.localtime().tm_hour` — Python truthiness, so `t = 0` also falls
back to the current hour `hr` — and the location argument is
`loc or (0.0, 0.0)`.  Returns the score (or `none` for the raised error)
together with the possibly-mutated state. -/
def compute_score (c : TLCA_ACR_Cache K V) (key : K) (t : Option ℚ)
    (loc : Option (ℚ × ℚ)) (now hr : ℚ) : Option ℚ × TLCA_ACR_Cache K V :=
  let fa := dGetDefault0 c.access_freq key
  let c1 : TLCA_ACR_Cache K V := { c with access_freq := fa.2 }
  match dGet c.last_access key with
  | none => (none, c1)
  | some la =>
    let recency := now - la
    let context_val := c.context_fn ()
    let timeArg : ℚ := match t with
      | none => hr
      | some tv => if tv = 0 then hr else tv
    let locArg : ℚ × ℚ := match loc with
      | none => (0, 0)
      | some p => p
    let time_weight := c.time_fn timeArg
    let loc_weight := c.loc_fn locArg.1 locArg.2
    (some (c.alpha * (fa.1 : ℚ) + c.beta * (1 / (recency + tol)) +
           c.gamma * context_val + c.delta * time_weight +
           c.epsilon * loc_weight), c1)

/-- Method `get(key, t, loc)`: on a hit, bump `access_freq[key]`, refresh
`last_access[key]`, and return the stored value; on a miss return `None`
with the state untouched.  (`t` and `loc` are unused by the source.) -/
def get (c : TLCA_ACR_Cache K V) (key : K) (_t : Option ℚ)
    (_loc : Option (ℚ × ℚ)) (now : ℚ) : Option V × TLCA_ACR_Cache K V :=
  match dGet c.cache key with
  | some p =>
    (some p.1,
     { c with
        access_freq := dSet c.access_freq key ((dGet c.access_freq key).getD 0 + 1),
        last_access := dSet c.last_access key now })
  | none => (none, c)

/-- The scan loop of `evict`: walk the cache keys in order, tracking the
running minimum (`none` plays the role of `float('inf')`) and the tied list;
a strictly smaller score resets the tied list, a score within `tol` of the
running minimum is appended.  The state is threaded because each
`compute_score` call may mutate `access_freq`; a raised `KeyError`
(`compute_score` returning `none`) aborts with `none`. -/
def evictLoop (t : Option ℚ) (loc : Option (ℚ × ℚ)) (now hr : ℚ) :
    TLCA_ACR_Cache K V → List K → Option ℚ → List K →
    Option (Option ℚ × List K × TLCA_ACR_Cache K V)
  | c, [], m, tied => some (m, tied, c)
  | c, k :: ks, m, tied =>
    match compute_score c k t loc now hr with
    | (none, _) => none
    | (some s, c1) =>
      match m with
      | none => evictLoop t loc now hr c1 ks (some s) [k]
      | some mv =>
        if s < mv then evictLoop t loc now hr c1 ks (some s) [k]
        else if |s - mv| < tol then evictLoop t loc now hr c1 ks (some mv) (tied ++ [k])
        else evictLoop t loc now hr c1 ks (some mv) tied

/-- Python `max(tied_keys, key=lambda k: self.last_access[k])`: the first
element whose `last_access` is maximal (strictly greater replaces the
current best, ties keep the earlier element).  A missing `last_access`
entry is a raised `KeyError`, modelled as `none`. -/
def maxByLA (la : List (K × ℚ)) : K → List K → Option K
  | best, [] => some best
  | best, k :: ks =>
    match dGet la best, dGet la k with
    | some b, some v => if b < v then maxByLA la k ks else maxByLA la best ks
    | _, _ => none

/-- Method `evict(t, loc)`: scan all keys for the minimum score (with the `1e-5`
tie tolerance), then delete the tied key with the largest `last_access`
from all three dictionaries.  Empty tied list (empty cache) is a no-op. -/
def evict (c : TLCA_ACR_Cache K V) (t : Option ℚ) (loc : Option (ℚ × ℚ))
    (now hr : ℚ) : Option (TLCA_ACR_Cache K V) :=
  match evictLoop t loc now hr c (c.cache.map Prod.fst) none [] with
  | none => none
  | some (_, tied, c1) =>
    match tied with
    | [] => some c1
    | k0 :: ks =>
      match maxByLA c1.last_access k0 ks with
      | none => none
      | some kev =>
        some { c1 with cache := dDel c1.cache kev,
                       access_freq := dDel c1.access_freq kev,
                       last_access := dDel c1.last_access kev }

/-- Lines 81–84 of the source: store the value with the current timestamp,
bump the frequency, refresh the last access. -/
def putStore (c : TLCA_ACR_Cache K V) (key : K) (v : V) (now : ℚ) :
    TLCA_ACR_Cache K V :=
  { c with
     cache := dSet c.cache key (v, now),
     access_freq := dSet c.access_freq key ((dGet c.access_freq key).getD 0 + 1),
     last_access := dSet c.last_access key now }

/-- Method `put(key, value, t, loc)`: evict first when the key is new and
`len(self.cache) >= self.capacity`, then store. -/
def put (c : TLCA_ACR_Cache K V) (key : K) (v : V) (t : Option ℚ)
    (loc : Option (ℚ × ℚ)) (now hr : ℚ) : Option (TLCA_ACR_Cache K V) :=
  if (dGet c.cache key).isNone ∧ c.capacity ≤ c.cache.length then
    match evict c t loc now hr with
    | none => none
    | some c1 => some (putStore c1 key v now)
  else some (putStore c key v now)

/-- Method `current_keys()`: the keys in dictionary (insertion) order. -/
def current_keys (c : TLCA_ACR_Cache K V) : List K :=
  c.cache.map Prod.fst

end TLCA_ACR_Cache

open TLCA_ACR_Cache

/-- One public call of the four-operation surface (`list_keys` reads the
state without modifying it). -/
inductive Op (K V : Type) where
  | get (key : K) (t : Option ℚ) (loc : Option (ℚ × ℚ)) (now : ℚ)
  | put (key : K) (v : V) (t : Option ℚ) (loc : Option (ℚ × ℚ)) (now hr : ℚ)
  | evict (t : Option ℚ) (loc : Option (ℚ × ℚ)) (now hr : ℚ)
  | listKeys

/-- The state transition of one completed public call (`none` = the call
raised). -/
def step (c : TLCA_ACR_Cache K V) : Op K V → Option (TLCA_ACR_Cache K V)
  | .get key t loc now => some (TLCA_ACR_Cache.get c key t loc now).2
  | .put key v t loc now hr => TLCA_ACR_Cache.put c key v t loc now hr
  | .evict t loc now hr => TLCA_ACR_Cache.evict c t loc now hr
  | .listKeys => some c

/-- Run a sequence of public calls; `none` as soon as one raises. -/
def run (c : TLCA_ACR_Cache K V) : List (Op K V) → Option (TLCA_ACR_Cache K V)
  | [] => some c
  | op :: ops =>
    match step c op with
    | none => none
    | some c' => run c' ops


/-! ## Proof-side definitions: scan recharacterization, minima,
invariant, and the concrete caches used by witnesses -/

/-- Keys of the three dictionaries are duplicate-free (Python dicts). -/
def nodupKeys (l : List (K × A)) : Prop := (l.map Prod.fst).Nodup

/-- Two frequency maps that read back the same value for every key through
the `defaultdict` interface. -/
def freqSame (old new : List (K × Nat)) : Prop :=
  ∀ j, (dGet new j).getD 0 = (dGet old j).getD 0

/-- Proof-side recharacterization of the scan loop: the same control flow
driven by a fixed score assignment, with no state threading. -/
def scan (sc : K → Option ℚ) : List K → Option ℚ → List K → Option (Option ℚ × List K)
  | [], m, tied => some (m, tied)
  | k :: ks, m, tied =>
    match sc k with
    | none => none
    | some s =>
      match m with
      | none => scan sc ks (some s) [k]
      | some mv =>
        if s < mv then scan sc ks (some s) [k]
        else if |s - mv| < tol then scan sc ks (some mv) (tied ++ [k])
        else scan sc ks (some mv) tied

/-- Total version of the scan (all scores defined). -/
def scanT (sc : K → ℚ) : List K → Option ℚ → List K → Option ℚ × List K
  | [], m, tied => (m, tied)
  | k :: ks, m, tied =>
    match m with
    | none => scanT sc ks (some (sc k)) [k]
    | some mv =>
      if sc k < mv then scanT sc ks (some (sc k)) [k]
      else if |sc k - mv| < tol then scanT sc ks (some mv) (tied ++ [k])
      else scanT sc ks (some mv) tied

def qListMin : List ℚ → Option ℚ
  | [] => none
  | x :: xs =>
    some (match qListMin xs with
          | none => x
          | some w => min x w)

def optMin : Option ℚ → Option ℚ → Option ℚ
  | none, b => b
  | some a, none => some a
  | some a, some b => some (min a b)

/-- The score of a key, defaulting to `0` for the raised case (only used
when definedness is known). -/
def scoreD (c : TLCA_ACR_Cache K V) (t : Option ℚ) (loc : Option (ℚ × ℚ))
    (now hr : ℚ) (k : K) : ℚ :=
  ((compute_score c k t loc now hr).1).getD 0

/-- Invariant of every state reachable through the public operations:
every present key has a frequency entry (at least 1) and a last-access
entry; every absent key has neither; all three dictionaries have
duplicate-free keys. -/
def Inv (c : TLCA_ACR_Cache K V) : Prop :=
  (∀ k, (dGet c.cache k).isSome →
     (∃ n, dGet c.access_freq k = some n ∧ 1 ≤ n) ∧ (dGet c.last_access k).isSome) ∧
  (∀ k, dGet c.cache k = none →
     dGet c.access_freq k = none ∧ dGet c.last_access k = none) ∧
  nodupKeys c.cache ∧ nodupKeys c.access_freq ∧ nodupKeys c.last_access

/-- Two keys whose scores (pure recency, `beta = 1`, all other weights `0`)
are within `1e-5` of each other but not equal: key 1 scores `200001/200000`,
key 2 scores `1`, and key 1 has the larger `last_access`. -/
def c2ex : TLCA_ACR_Cache Nat Nat :=
  { capacity := 2, alpha := 0, beta := 1, gamma := 0, delta := 0, epsilon := 0,
    cache := [(1, 0, 0), (2, 0, 0)],
    access_freq := [(1, 1), (2, 1)],
    last_access := [(1, 20000400001/20000100000), (2, 100001/100000)],
    context_fn := fun _ => 1, time_fn := fun _ => 1, loc_fn := fun _ _ => 1 }

/-- The state after `evict c2ex none none 2 0`: key 2 (the exact minimum)
is removed even though key 1 is within tolerance with a larger
`last_access`. -/
def c2ex' : TLCA_ACR_Cache Nat Nat :=
  { c2ex with cache := [(1, 0, 0)],
              access_freq := [(1, 1)],
              last_access := [(1, 20000400001/20000100000)] }

/-- One key, identity `time_fn`, `delta = 1` and all other weights `0`:
the score is exactly the time weight actually used. -/
def c3ex : TLCA_ACR_Cache Nat Nat :=
  { capacity := 2, alpha := 0, beta := 0, gamma := 0, delta := 1, epsilon := 0,
    cache := [(1, 0, 0)], access_freq := [(1, 1)], last_access := [(1, 1)],
    context_fn := fun _ => 1, time_fn := fun t => t, loc_fn := fun _ _ => 1 }

/-- State reached from an empty capacity-2 cache by one `put`. -/
def c1ex : TLCA_ACR_Cache Nat Nat :=
  { mkCache Nat Nat 2 1 1 1 1 1 with
      cache := [(1, 10, 1)], access_freq := [(1, 1)], last_access := [(1, 1)] }

/-- One key, capacity 1, all weights 1: a full cache about to receive a new
key. -/
def c4ex : TLCA_ACR_Cache Nat Nat :=
  { capacity := 1, alpha := 1, beta := 1, gamma := 1, delta := 1, epsilon := 1,
    cache := [(1, 5, 0)], access_freq := [(1, 1)], last_access := [(1, 0)],
    context_fn := fun _ => 1, time_fn := fun _ => 1, loc_fn := fun _ _ => 1 }

/-- State `c4ex` after `put 2 9` at time 3: key 1 evicted, key 2 stored. -/
def c4ex' : TLCA_ACR_Cache Nat Nat :=
  { c4ex with cache := [(2, 9, 3)], access_freq := [(2, 1)], last_access := [(2, 3)] }

/-- One key, used to exercise `evict` on a non-empty well-formed cache. -/
def c5ex : TLCA_ACR_Cache Nat Nat :=
  { capacity := 3, alpha := 1, beta := 1, gamma := 1, delta := 1, epsilon := 1,
    cache := [(7, 4, 0)], access_freq := [(7, 2)], last_access := [(7, 0)],
    context_fn := fun _ => 1, time_fn := fun _ => 1, loc_fn := fun _ _ => 1 }

/-- One key, used to exercise `put` on an already-present key. -/
def c6ex : TLCA_ACR_Cache Nat Nat :=
  { capacity := 1, alpha := 1, beta := 1, gamma := 1, delta := 1, epsilon := 1,
    cache := [(3, 11, 0)], access_freq := [(3, 1)], last_access := [(3, 0)],
    context_fn := fun _ => 1, time_fn := fun _ => 1, loc_fn := fun _ _ => 1 }

/-- One key, used to exercise a `get` hit. -/
def c7ex : TLCA_ACR_Cache Nat Nat :=
  { capacity := 2, alpha := 1, beta := 1, gamma := 1, delta := 1, epsilon := 1,
    cache := [(4, 8, 0)], access_freq := [(4, 3)], last_access := [(4, 0)],
    context_fn := fun _ => 1, time_fn := fun _ => 1, loc_fn := fun _ _ => 1 }

/-! ## Association-list (Python dict) lemmas -/


theorem dGet_dSet_self (l : List (K × A)) (k : K) (a : A) :
    dGet (dSet l k a) k = some a := by
  induction l with
  | nil => simp [dGet, dSet]
  | cons p rest ih =>
    obtain ⟨k', a'⟩ := p
    by_cases h : k' = k <;> simp [dGet, dSet, h, ih]

theorem dGet_dSet_ne (l : List (K × A)) (k j : K) (a : A) (hne : j ≠ k) :
    dGet (dSet l k a) j = dGet l j := by
  have hkj : ¬ k = j := fun h => hne h.symm
  induction l with
  | nil => simp [dGet, dSet, hkj]
  | cons p rest ih =>
    obtain ⟨k', a'⟩ := p
    by_cases h : k' = k
    · subst h; simp [dGet, dSet, hkj]
    · by_cases h2 : k' = j <;> simp [dGet, dSet, h, h2, ih, hne]

theorem dSet_length_of_isSome (l : List (K × A)) (k : K) (a : A)
    (h : (dGet l k).isSome) : (dSet l k a).length = l.length := by
  induction l with
  | nil => simp [dGet] at h
  | cons p rest ih =>
    by_cases hk : p.1 = k
    · simp [dSet, hk]
    · simp [dGet, hk] at h
      simp [dSet, hk, ih h]

theorem dSet_length_of_none (l : List (K × A)) (k : K) (a : A)
    (h : dGet l k = none) : (dSet l k a).length = l.length + 1 := by
  induction l with
  | nil => simp [dSet]
  | cons p rest ih =>
    by_cases hk : p.1 = k
    · simp [dGet, hk] at h
    · simp [dGet, hk] at h
      simp [dSet, hk, ih h]

theorem dDel_length_le (l : List (K × A)) (k : K) :
    (dDel l k).length ≤ l.length := by
  induction l with
  | nil => simp [dDel]
  | cons p rest ih =>
    obtain ⟨k', a'⟩ := p
    by_cases hk : k' = k
    · simp only [dDel, if_pos hk, List.length_cons]
      exact Nat.le_succ _
    · simp only [dDel, if_neg hk, List.length_cons]
      exact Nat.succ_le_succ ih

theorem dDel_length_of_isSome (l : List (K × A)) (k : K)
    (h : (dGet l k).isSome) : (dDel l k).length + 1 = l.length := by
  induction l with
  | nil => simp [dGet] at h
  | cons p rest ih =>
    by_cases hk : p.1 = k
    · simp [dDel, hk]
    · simp [dGet, hk] at h
      simp [dDel, hk, ih h]

theorem dGet_dDel_ne (l : List (K × A)) (k j : K) (hne : j ≠ k) :
    dGet (dDel l k) j = dGet l j := by
  have hkj : ¬ k = j := fun h => hne h.symm
  induction l with
  | nil => simp [dDel]
  | cons p rest ih =>
    obtain ⟨k', a'⟩ := p
    by_cases hk : k' = k
    · subst hk; simp [dGet, dDel, hkj]
    · by_cases hj : k' = j <;> simp [dGet, dDel, hk, hj, ih, hne]

theorem dGet_dDel_of_none (l : List (K × A)) (k j : K)
    (h : dGet l j = none) : dGet (dDel l k) j = none := by
  induction l with
  | nil => simp [dDel, dGet]
  | cons p rest ih =>
    obtain ⟨k', a'⟩ := p
    by_cases hj : k' = j
    · simp [dGet, hj] at h
    · simp only [dGet, if_neg hj] at h
      by_cases hk : k' = k
      · simpa [dDel, hk] using h
      · simp [dDel, dGet, hk, hj, ih h]

theorem isSome_of_dGet_dDel (l : List (K × A)) (k j : K)
    (h : (dGet (dDel l k) j).isSome) : (dGet l j).isSome := by
  by_cases hj : j = k
  · subst hj
    by_cases hl : (dGet l j).isSome
    · exact hl
    · rw [Option.not_isSome_iff_eq_none] at hl
      rw [dGet_dDel_of_none l j j hl] at h
      simp at h
  · rwa [dGet_dDel_ne l k j hj] at h

theorem mem_map_fst_iff_isSome (l : List (K × A)) (k : K) :
    k ∈ l.map Prod.fst ↔ (dGet l k).isSome := by
  induction l with
  | nil => simp [dGet]
  | cons p rest ih =>
    obtain ⟨k', a'⟩ := p
    by_cases hk : k' = k
    · simp [dGet, hk]
    · have hk2 : ¬ k = k' := fun h => hk h.symm
      simp [dGet, hk, hk2, ih]

theorem nodupKeys_cons_iff (k' : K) (a' : A) (rest : List (K × A)) :
    nodupKeys ((k', a') :: rest) ↔ dGet rest k' = none ∧ nodupKeys rest := by
  simp only [nodupKeys, List.map_cons, List.nodup_cons]
  constructor
  · rintro ⟨h1, h2⟩
    refine ⟨?_, h2⟩
    by_cases hr : (dGet rest k').isSome
    · exact absurd ((mem_map_fst_iff_isSome rest k').2 hr) h1
    · rwa [Option.not_isSome_iff_eq_none] at hr
  · rintro ⟨h1, h2⟩
    refine ⟨?_, h2⟩
    intro hm
    rw [mem_map_fst_iff_isSome, h1] at hm
    simp at hm

theorem dGet_dDel_self_of_nodup (l : List (K × A)) (k : K)
    (h : nodupKeys l) : dGet (dDel l k) k = none := by
  induction l with
  | nil => simp [dDel, dGet]
  | cons p rest ih =>
    obtain ⟨k', a'⟩ := p
    rw [nodupKeys_cons_iff] at h
    by_cases hk : k' = k
    · subst hk
      simpa [dDel] using h.1
    · simp [dDel, dGet, hk, ih h.2]

theorem nodupKeys_dSet (l : List (K × A)) (k : K) (a : A)
    (h : nodupKeys l) : nodupKeys (dSet l k a) := by
  induction l with
  | nil => simp [dSet, nodupKeys]
  | cons p rest ih =>
    obtain ⟨k', a'⟩ := p
    rw [nodupKeys_cons_iff] at h
    by_cases hk : k' = k
    · subst hk
      rw [dSet, if_pos rfl, nodupKeys_cons_iff]
      exact h
    · rw [dSet, if_neg hk, nodupKeys_cons_iff]
      refine ⟨?_, ih h.2⟩
      by_cases hpk : k' = k
      · exact absurd hpk hk
      · rw [dGet_dSet_ne rest k k' a hpk]
        exact h.1

theorem nodupKeys_dDel (l : List (K × A)) (k : K)
    (h : nodupKeys l) : nodupKeys (dDel l k) := by
  induction l with
  | nil => simp [dDel, nodupKeys]
  | cons p rest ih =>
    obtain ⟨k', a'⟩ := p
    rw [nodupKeys_cons_iff] at h
    by_cases hk : k' = k
    · rw [dDel, if_pos hk]
      exact h.2
    · rw [dDel, if_neg hk, nodupKeys_cons_iff]
      exact ⟨dGet_dDel_of_none rest k k' h.1, ih h.2⟩

theorem dGet_append_isSome (l l' : List (K × A)) (j : K)
    (h : (dGet l j).isSome) : dGet (l ++ l') j = dGet l j := by
  induction l with
  | nil => simp [dGet] at h
  | cons p rest ih =>
    by_cases hj : p.1 = j
    · simp [dGet, hj]
    · simp [dGet, hj] at h ⊢
      exact ih h

theorem dGet_append_of_none (l : List (K × A)) (k0 j : K) (a0 : A)
    (h : dGet l j = none) :
    dGet (l ++ [(k0, a0)]) j = if k0 = j then some a0 else none := by
  induction l with
  | nil => simp [dGet]
  | cons p rest ih =>
    by_cases hj : p.1 = j
    · simp [dGet, hj] at h
    · simp [dGet, hj] at h ⊢
      exact ih h

/-- Reads through `defaultdict` never change the value each key reads back
(a fresh `(k, 0)` entry reads as the default `0`). -/
theorem dGetDefault0_getD (l : List (K × Nat)) (k j : K) :
    (dGet (dGetDefault0 l k).2 j).getD 0 = (dGet l j).getD 0 := by
  unfold dGetDefault0
  cases hl : dGet l k with
  | some a => rfl
  | none =>
    simp only
    by_cases hj : (dGet l j).isSome
    · rw [dGet_append_isSome l _ j hj]
    · rw [Option.not_isSome_iff_eq_none] at hj
      rw [hj, dGet_append_of_none l k j 0 hj]
      by_cases hk : k = j <;> simp [hk]

theorem dGetDefault0_fst (l : List (K × Nat)) (k : K) :
    ((dGetDefault0 l k).1 : Nat) = (dGet l k).getD 0 := by
  unfold dGetDefault0
  cases hl : dGet l k <;> rfl

theorem dGetDefault0_of_isSome (l : List (K × Nat)) (k : K)
    (h : (dGet l k).isSome) : (dGetDefault0 l k).2 = l := by
  unfold dGetDefault0
  cases hl : dGet l k with
  | some a => rfl
  | none => rw [hl] at h; simp at h

/-! ## The eviction scan: state shape and a pure recharacterization -/

open TLCA_ACR_Cache

theorem freqSame_refl (l : List (K × Nat)) : freqSame l l := fun _ => rfl

theorem freqSame_trans {a b c : List (K × Nat)}
    (h1 : freqSame a b) (h2 : freqSame b c) : freqSame a c :=
  fun j => (h2 j).trans (h1 j)

/-- The method `compute_score` only mutates `access_freq`, and only in a way that
preserves every `defaultdict` read. -/
theorem compute_score_snd (c : TLCA_ACR_Cache K V) (key : K) (t : Option ℚ)
    (loc : Option (ℚ × ℚ)) (now hr : ℚ) :
    (compute_score c key t loc now hr).2 =
      { c with access_freq := (dGetDefault0 c.access_freq key).2 } ∧
    freqSame c.access_freq (compute_score c key t loc now hr).2.access_freq := by
  constructor
  · unfold compute_score
    cases dGet c.last_access key <;> rfl
  · intro j
    have h2 : (compute_score c key t loc now hr).2.access_freq =
        (dGetDefault0 c.access_freq key).2 := by
      unfold compute_score
      cases dGet c.last_access key <;> rfl
    rw [h2]
    exact dGetDefault0_getD c.access_freq key j

/-- The score returned by `compute_score` is unchanged when `access_freq`
is replaced by a `freqSame` map (all other fields equal). -/
theorem compute_score_fst_congr (c : TLCA_ACR_Cache K V) (af : List (K × Nat))
    (hfs : freqSame c.access_freq af) (key : K) (t : Option ℚ)
    (loc : Option (ℚ × ℚ)) (now hr : ℚ) :
    (compute_score { c with access_freq := af } key t loc now hr).1 =
      (compute_score c key t loc now hr).1 := by
  unfold compute_score
  cases dGet c.last_access key with
  | none => rfl
  | some la =>
    simp only
    rw [dGetDefault0_fst, dGetDefault0_fst, hfs key]

/-- The scan loop's final state only differs from the input state in
`access_freq`, and only by `defaultdict`-transparent appends. -/
theorem evictLoop_shape {t : Option ℚ} {loc : Option (ℚ × ℚ)} {now hr : ℚ} :
    ∀ (ks : List K) (c : TLCA_ACR_Cache K V) (m : Option ℚ) (tied : List K)
      (m' : Option ℚ) (tied' : List K) (c2 : TLCA_ACR_Cache K V),
      evictLoop t loc now hr c ks m tied = some (m', tied', c2) →
      ∃ af, c2 = { c with access_freq := af } ∧ freqSame c.access_freq af := by
  intro ks
  induction ks with
  | nil =>
    intro c m tied m' tied' c2 h
    simp only [evictLoop, Option.some.injEq, Prod.mk.injEq] at h
    obtain ⟨-, -, h3⟩ := h
    subst h3
    exact ⟨c.access_freq, rfl, freqSame_refl _⟩
  | cons k ks ih =>
    intro c m tied m' tied' c2 h
    simp only [evictLoop] at h
    obtain ⟨hshape, hfs⟩ := compute_score_snd c k t loc now hr
    rcases hcs : compute_score c k t loc now hr with ⟨r, c1⟩
    rw [hcs] at h hshape hfs
    simp only at hshape hfs
    subst hshape
    cases r with
    | none => simp at h
    | some s =>
      simp only at h
      have hkey : ∀ m0 tied0,
          evictLoop t loc now hr
            { c with access_freq := (dGetDefault0 c.access_freq k).2 } ks m0 tied0 =
            some (m', tied', c2) →
          ∃ af, c2 = { c with access_freq := af } ∧ freqSame c.access_freq af := by
        intro m0 tied0 h0
        obtain ⟨af, hc2, hfs2⟩ := ih _ m0 tied0 m' tied' c2 h0
        exact ⟨af, hc2, freqSame_trans hfs hfs2⟩
      cases m with
      | none => exact hkey _ _ h
      | some mv =>
        simp only at h
        split at h
        · exact hkey _ _ h
        · split at h
          · exact hkey _ _ h
          · exact hkey _ _ h

/-- The stateful scan loop computes exactly the pure scan on the scores
taken in the *initial* state (the threaded `defaultdict` mutations never
change a score). -/
theorem evictLoop_eq_scan {t : Option ℚ} {loc : Option (ℚ × ℚ)} {now hr : ℚ} :
    ∀ (ks : List K) (c : TLCA_ACR_Cache K V) (af : List (K × Nat))
      (m : Option ℚ) (tied : List K),
      freqSame c.access_freq af →
      (evictLoop t loc now hr { c with access_freq := af } ks m tied).map
          (fun r => (r.1, r.2.1)) =
        scan (fun k => (compute_score c k t loc now hr).1) ks m tied := by
  intro ks
  induction ks with
  | nil => intro c af m tied _; rfl
  | cons k ks ih =>
    intro c af m tied hfs
    simp only [evictLoop, scan]
    obtain ⟨hshape, hfs1⟩ :=
      compute_score_snd { c with access_freq := af } k t loc now hr
    rcases hcs : compute_score { c with access_freq := af } k t loc now hr with ⟨r, c1⟩
    rw [hcs] at hshape hfs1
    simp only at hshape hfs1
    subst hshape
    have hr1 : r = (compute_score c k t loc now hr).1 := by
      rw [← compute_score_fst_congr c af hfs k t loc now hr, hcs]
    rw [← hr1]
    have hfs2 : freqSame c.access_freq (dGetDefault0 af k).2 :=
      freqSame_trans hfs hfs1
    have hrec : ∀ m0 tied0,
        (evictLoop t loc now hr
            { c with access_freq := (dGetDefault0 af k).2 } ks m0 tied0).map
            (fun r => (r.1, r.2.1)) =
          scan (fun k => (compute_score c k t loc now hr).1) ks m0 tied0 :=
      fun m0 tied0 => ih c (dGetDefault0 af k).2 m0 tied0 hfs2
    cases r with
    | none => rfl
    | some s =>
      cases m with
      | none => exact hrec _ _
      | some mv =>
        dsimp only
        by_cases h1 : s < mv
        · rw [if_pos h1, if_pos h1]; exact hrec _ _
        · rw [if_neg h1, if_neg h1]
          by_cases h2 : |s - mv| < tol
          · rw [if_pos h2, if_pos h2]; exact hrec _ _
          · rw [if_neg h2, if_neg h2]; exact hrec _ _

theorem scan_isSome_scores (sc : K → Option ℚ) :
    ∀ (ks : List K) (m : Option ℚ) (tied : List K) (r : Option ℚ × List K),
      scan sc ks m tied = some r → ∀ k ∈ ks, (sc k).isSome := by
  intro ks
  induction ks with
  | nil => intro m tied r _ k hk; simp at hk
  | cons k0 ks ih =>
    intro m tied r h k hk
    simp only [scan] at h
    cases hsc : sc k0 with
    | none => rw [hsc] at h; simp at h
    | some s =>
      rw [hsc] at h
      rcases List.mem_cons.1 hk with hk | hk
      · subst hk; rw [hsc]; rfl
      · cases m with
        | none => exact ih _ _ r h k hk
        | some mv =>
          dsimp only at h
          split at h
          · exact ih _ _ r h k hk
          · split at h
            · exact ih _ _ r h k hk
            · exact ih _ _ r h k hk

theorem scan_eq_scanT (sc : K → Option ℚ) :
    ∀ (ks : List K) (m : Option ℚ) (tied : List K),
      (∀ k ∈ ks, (sc k).isSome) →
      scan sc ks m tied = some (scanT (fun k => (sc k).getD 0) ks m tied) := by
  intro ks
  induction ks with
  | nil => intro m tied _; rfl
  | cons k0 ks ih =>
    intro m tied hall
    have h0 : (sc k0).isSome := hall k0 (List.mem_cons_self k0 ks)
    have hrest : ∀ k ∈ ks, (sc k).isSome := fun k hk => hall k (List.mem_cons_of_mem k0 hk)
    obtain ⟨s, hsc⟩ := Option.isSome_iff_exists.mp h0
    simp only [scan, scanT, hsc, Option.getD_some]
    · cases m with
      | none => exact ih _ _ hrest
      | some mv =>
        dsimp only
        by_cases h1 : s < mv
        · rw [if_pos h1, if_pos h1]; exact ih _ _ hrest
        · rw [if_neg h1, if_neg h1]
          by_cases h2 : |s - mv| < tol
          · rw [if_pos h2, if_pos h2]; exact ih _ _ hrest
          · rw [if_neg h2, if_neg h2]; exact ih _ _ hrest

theorem scanT_mem (sc : K → ℚ) :
    ∀ (ks : List K) (m : Option ℚ) (tied : List K),
      ∀ k ∈ (scanT sc ks m tied).2, k ∈ ks ∨ k ∈ tied := by
  intro ks
  induction ks with
  | nil => intro m tied k hk; exact Or.inr hk
  | cons k0 ks ih =>
    intro m tied k hk
    have step : ∀ m0 tied0, (∀ j ∈ tied0, j = k0 ∨ j ∈ tied) →
        k ∈ (scanT sc ks m0 tied0).2 → k ∈ k0 :: ks ∨ k ∈ tied := by
      intro m0 tied0 hsub hmem
      rcases ih m0 tied0 k hmem with h | h
      · exact Or.inl (List.mem_cons_of_mem k0 h)
      · rcases hsub k h with h2 | h2
        · exact Or.inl (h2 ▸ List.mem_cons_self k0 ks)
        · exact Or.inr h2
    simp only [scanT] at hk
    cases m with
    | none =>
      exact step _ [k0] (by intro j hj; simp at hj; exact Or.inl hj) hk
    | some mv =>
      dsimp only at hk
      split at hk
      · exact step _ [k0] (by intro j hj; simp at hj; exact Or.inl hj) hk
      · split at hk
        · refine step _ (tied ++ [k0]) ?_ hk
          intro j hj
          rcases List.mem_append.1 hj with h | h
          · exact Or.inr h
          · simp at h; exact Or.inl h
        · exact step _ tied (fun j hj => Or.inr hj) hk

theorem scanT_tied_ne_nil (sc : K → ℚ) :
    ∀ (ks : List K) (m : Option ℚ) (tied : List K),
      (tied ≠ [] ∨ (m = none ∧ ks ≠ [])) → (scanT sc ks m tied).2 ≠ [] := by
  intro ks
  induction ks with
  | nil =>
    intro m tied h
    rcases h with h | ⟨_, h⟩
    · exact h
    · exact absurd rfl h
  | cons k0 ks ih =>
    intro m tied h
    simp only [scanT]
    cases m with
    | none => exact ih _ [k0] (Or.inl (by simp))
    | some mv =>
      dsimp only
      have hne : tied ≠ [] := by
        rcases h with h | ⟨hm, _⟩
        · exact h
        · exact absurd hm (by simp)
      split
      · exact ih _ [k0] (Or.inl (by simp))
      · split
        · exact ih _ (tied ++ [k0]) (Or.inl (by simp))
        · exact ih _ tied (Or.inl hne)

theorem tol_pos : (0 : ℚ) < tol := by norm_num [tol]

/-! ## Minimum of a list of scores -/

theorem optMin_qListMin_cons (mv x : ℚ) (l : List ℚ) :
    optMin (some mv) (qListMin (x :: l)) = optMin (some (min mv x)) (qListMin l) := by
  cases h : qListMin l with
  | none => simp [qListMin, optMin, h]
  | some w => simp [qListMin, optMin, h, min_assoc]

theorem optMin_qListMin_cons_self (x : ℚ) (l : List ℚ) :
    qListMin (x :: l) = optMin (some x) (qListMin l) := by
  cases h : qListMin l with
  | none => simp [qListMin, optMin, h]
  | some w => simp [qListMin, optMin, h]

theorem optMin_qListMin_le (a : ℚ) (l : List ℚ) (μ : ℚ)
    (h : optMin (some a) (qListMin l) = some μ) :
    μ ≤ a ∧ ∀ x ∈ l, μ ≤ x := by
  induction l generalizing a with
  | nil =>
    simp only [qListMin, optMin, Option.some.injEq] at h
    subst h
    exact ⟨le_refl a, by simp⟩
  | cons x xs ih =>
    rw [optMin_qListMin_cons] at h
    obtain ⟨h1, h2⟩ := ih (min a x) h
    refine ⟨le_trans h1 (min_le_left a x), ?_⟩
    intro y hy
    rcases List.mem_cons.1 hy with hy | hy
    · exact hy ▸ le_trans h1 (min_le_right a x)
    · exact h2 y hy

/-- The running minimum computed by the scan is the minimum of the input
minimum and all scores seen. -/
theorem scanT_min (sc : K → ℚ) :
    ∀ (ks : List K) (mv : ℚ) (tied : List K),
      (scanT sc ks (some mv) tied).1 = optMin (some mv) (qListMin (ks.map sc)) := by
  intro ks
  induction ks with
  | nil => intro mv tied; rfl
  | cons k0 ks ih =>
    intro mv tied
    simp only [scanT, List.map_cons]
    rw [optMin_qListMin_cons]
    by_cases h1 : sc k0 < mv
    · rw [if_pos h1, ih (sc k0), min_eq_right (le_of_lt h1)]
    · rw [if_neg h1, min_eq_left (le_of_not_lt h1)]
      by_cases h2 : |sc k0 - mv| < tol
      · rw [if_pos h2, ih mv]
      · rw [if_neg h2, ih mv]

/-- Every key in the final tied list has a score within `tol` of the final
running minimum. -/
theorem scanT_tol (sc : K → ℚ) :
    ∀ (ks : List K) (mv : ℚ) (tied : List K),
      (∀ k ∈ tied, |sc k - mv| < tol) →
      ∀ k ∈ (scanT sc ks (some mv) tied).2,
        ∃ μ, (scanT sc ks (some mv) tied).1 = some μ ∧ |sc k - μ| < tol := by
  intro ks
  induction ks with
  | nil =>
    intro mv tied htied k hk
    exact ⟨mv, rfl, htied k hk⟩
  | cons k0 ks ih =>
    intro mv tied htied k hk
    simp only [scanT] at hk ⊢
    by_cases h1 : sc k0 < mv
    · rw [if_pos h1] at hk ⊢
      refine ih (sc k0) [k0] ?_ k hk
      intro j hj
      simp at hj
      subst hj
      simpa using tol_pos
    · rw [if_neg h1] at hk ⊢
      by_cases h2 : |sc k0 - mv| < tol
      · rw [if_pos h2] at hk ⊢
        refine ih mv (tied ++ [k0]) ?_ k hk
        intro j hj
        rcases List.mem_append.1 hj with h | h
        · exact htied j h
        · simp at h; subst h; exact h2
      · rw [if_neg h2] at hk ⊢
        exact ih mv tied htied k hk

/-- When every score within `tol` of the global minimum `μ` is *exactly*
`μ`, the final tied list is precisely the keys scoring `μ`, in order. -/
theorem scanT_exact (sc : K → ℚ) :
    ∀ (ks : List K) (mv μ : ℚ) (tied : List K),
      optMin (some mv) (qListMin (ks.map sc)) = some μ →
      (mv = μ ∨ ¬ |mv - μ| < tol) →
      (∀ k ∈ tied, |sc k - mv| < tol ∧ (mv = μ → sc k = mv)) →
      (∀ k ∈ ks, sc k = μ ∨ ¬ |sc k - μ| < tol) →
      scanT sc ks (some mv) tied =
        (some μ, (if mv = μ then tied else []) ++
                 ks.filter (fun k => decide (sc k = μ))) := by
  intro ks
  induction ks with
  | nil =>
    intro mv μ tied hμ hmv htied hex
    simp only [List.map_nil, qListMin, optMin, Option.some.injEq] at hμ
    subst hμ
    simp [scanT]
  | cons k0 ks ih =>
    intro mv μ tied hμ hmv htied hex
    rw [List.map_cons, optMin_qListMin_cons] at hμ
    obtain ⟨hle, hlall⟩ := optMin_qListMin_le _ _ _ hμ
    have hμmv : μ ≤ mv := le_trans hle (min_le_left _ _)
    have hμs : μ ≤ sc k0 := le_trans hle (min_le_right _ _)
    simp only [scanT]
    by_cases h1 : sc k0 < mv
    · rw [if_pos h1]
      rw [min_eq_right (le_of_lt h1)] at hμ
      have hmvne : mv ≠ μ := by
        intro he
        rw [he] at h1
        exact absurd h1 (not_lt.mpr hμs)
      rw [ih (sc k0) μ [k0] hμ (hex k0 (List.mem_cons_self k0 ks))
          (by
            intro k hk
            simp only [List.mem_singleton] at hk
            subst hk
            exact ⟨by simpa using tol_pos, fun _ => rfl⟩)
          (fun k hk => hex k (List.mem_cons_of_mem k0 hk))]
      rw [if_neg hmvne]
      by_cases hs : sc k0 = μ
      · simp [List.filter_cons, hs]
      · simp [List.filter_cons, hs]
    · rw [if_neg h1]
      have hge : mv ≤ sc k0 := le_of_not_lt h1
      rw [min_eq_left hge] at hμ
      by_cases h2 : |sc k0 - mv| < tol
      · rw [if_pos h2]
        rcases hex k0 (List.mem_cons_self k0 ks) with hs | hs
        · -- `sc k0 = μ`, hence `mv = μ = sc k0`: genuine exact tie, appended.
          have hmvμ : mv = μ := le_antisymm (hs ▸ hge) hμmv
          have hsmv : sc k0 = mv := hs.trans hmvμ.symm
          rw [ih mv μ (tied ++ [k0]) hμ (Or.inl hmvμ)
              (by
                intro k hk
                rcases List.mem_append.1 hk with hk | hk
                · exact htied k hk
                · simp only [List.mem_singleton] at hk
                  subst hk
                  exact ⟨by simpa [hsmv] using tol_pos, fun _ => hsmv⟩)
              (fun k hk => hex k (List.mem_cons_of_mem k0 hk))]
          rw [if_pos hmvμ, if_pos hmvμ]
          simp [List.filter_cons, hs, hmvμ, List.append_assoc]
        · -- near tie with the running minimum but far from the global
          -- minimum: the appended key is discarded by a later reset.
          have hmvne : mv ≠ μ := by
            intro he
            exact hs (by simpa [he] using h2)
          have hmvfar : ¬ |mv - μ| < tol := by
            rcases hmv with h | h
            · exact absurd h hmvne
            · exact h
          have hsne : sc k0 ≠ μ := by
            intro he
            exact hs (by simp [he, abs_zero, tol_pos])
          rw [ih mv μ (tied ++ [k0]) hμ (Or.inr hmvfar)
              (by
                intro k hk
                rcases List.mem_append.1 hk with hk | hk
                · exact ⟨(htied k hk).1, fun he => absurd he hmvne⟩
                · simp only [List.mem_singleton] at hk
                  subst hk
                  exact ⟨h2, fun he => absurd he hmvne⟩)
              (fun k hk => hex k (List.mem_cons_of_mem k0 hk))]
          rw [if_neg hmvne, if_neg hmvne]
          simp [List.filter_cons, hsne]
      · rw [if_neg h2]
        have hsne : sc k0 ≠ μ := by
          intro he
          have hmvμ : mv = μ := le_antisymm (he ▸ hge) hμmv
          exact h2 (by simpa [he, hmvμ] using tol_pos)
        rw [ih mv μ tied hμ hmv htied
            (fun k hk => hex k (List.mem_cons_of_mem k0 hk))]
        simp [List.filter_cons, hsne]

/-- Python `max(tied_keys, key=last_access)` returns a member of the list whose
`last_access` value dominates every element (the first such on exact ties). -/
theorem maxByLA_spec (la : List (K × ℚ)) :
    ∀ (ks : List K) (best kev : K), maxByLA la best ks = some kev →
      (kev = best ∨ kev ∈ ks) ∧
      (dGet la best).getD 0 ≤ (dGet la kev).getD 0 ∧
      ∀ j ∈ ks, (dGet la j).getD 0 ≤ (dGet la kev).getD 0 := by
  intro ks
  induction ks with
  | nil =>
    intro best kev h
    simp only [maxByLA, Option.some.injEq] at h
    subst h
    exact ⟨Or.inl rfl, le_refl _, by simp⟩
  | cons k ks ih =>
    intro best kev h
    simp only [maxByLA] at h
    cases hb : dGet la best with
    | none => rw [hb] at h; cases hv : dGet la k <;> rw [hv] at h <;> cases h
    | some b =>
      rw [hb] at h
      cases hv : dGet la k with
      | none => rw [hv] at h; cases h
      | some v =>
        rw [hv] at h
        dsimp only at h
        by_cases hlt : b < v
        · rw [if_pos hlt] at h
          obtain ⟨h1, h2, h3⟩ := ih k kev h
          rw [hv, Option.getD_some] at h2
          refine ⟨?_, ?_, ?_⟩
          · rcases h1 with h1 | h1
            · exact Or.inr (h1 ▸ List.mem_cons_self k ks)
            · exact Or.inr (List.mem_cons_of_mem k h1)
          · simpa using le_trans (le_of_lt hlt) h2
          · intro j hj
            rcases List.mem_cons.1 hj with hj | hj
            · subst hj
              rw [hv, Option.getD_some]
              exact h2
            · exact h3 j hj
        · rw [if_neg hlt] at h
          obtain ⟨h1, h2, h3⟩ := ih best kev h
          rw [hb, Option.getD_some] at h2
          refine ⟨?_, by simpa using h2, ?_⟩
          · rcases h1 with h1 | h1
            · exact Or.inl h1
            · exact Or.inr (List.mem_cons_of_mem k h1)
          · intro j hj
            rcases List.mem_cons.1 hj with hj | hj
            · subst hj
              rw [hv, Option.getD_some]
              exact le_trans (le_of_not_lt hlt) h2
            · exact h3 j hj

theorem maxByLA_isSome (la : List (K × ℚ)) :
    ∀ (ks : List K) (best : K),
      (dGet la best).isSome → (∀ k ∈ ks, (dGet la k).isSome) →
      (maxByLA la best ks).isSome := by
  intro ks
  induction ks with
  | nil => intro best _ _; rfl
  | cons k ks ih =>
    intro best hbest hall
    obtain ⟨b, hb⟩ := Option.isSome_iff_exists.mp hbest
    obtain ⟨v, hv⟩ := Option.isSome_iff_exists.mp (hall k (List.mem_cons_self k ks))
    simp only [maxByLA, hb, hv]
    by_cases hlt : b < v
    · rw [if_pos hlt]
      exact ih k (by rw [hv]; rfl) (fun j hj => hall j (List.mem_cons_of_mem k hj))
    · rw [if_neg hlt]
      exact ih best (by rw [hb]; rfl) (fun j hj => hall j (List.mem_cons_of_mem k hj))

/-! ## Specification of `evict` -/

theorem compute_score_fst_isSome (c : TLCA_ACR_Cache K V) (key : K)
    (t : Option ℚ) (loc : Option (ℚ × ℚ)) (now hr : ℚ) :
    ((compute_score c key t loc now hr).1).isSome ↔
      (dGet c.last_access key).isSome := by
  unfold compute_score
  cases dGet c.last_access key <;> simp

/-- A cache is `{c with access_freq := c.access_freq}` (structure eta), so
the bridge lemma applies to the loop as `evict` calls it. -/
theorem evictLoop_map_eq_scan (c : TLCA_ACR_Cache K V) (t : Option ℚ)
    (loc : Option (ℚ × ℚ)) (now hr : ℚ) (ks : List K) (m : Option ℚ)
    (tied : List K) :
    (evictLoop t loc now hr c ks m tied).map (fun r => (r.1, r.2.1)) =
      scan (fun k => (compute_score c k t loc now hr).1) ks m tied :=
  evictLoop_eq_scan ks c c.access_freq m tied (freqSame_refl _)

/-- Under presence of all scanned keys in `access_freq`, the scan loop does
not change the state at all. -/
theorem evictLoop_wf_state {t : Option ℚ} {loc : Option (ℚ × ℚ)} {now hr : ℚ} :
    ∀ (ks : List K) (c : TLCA_ACR_Cache K V) (m : Option ℚ) (tied : List K)
      (m' : Option ℚ) (tied' : List K) (c2 : TLCA_ACR_Cache K V),
      (∀ k ∈ ks, (dGet c.access_freq k).isSome) →
      evictLoop t loc now hr c ks m tied = some (m', tied', c2) → c2 = c := by
  intro ks
  induction ks with
  | nil =>
    intro c m tied m' tied' c2 _ h
    simp only [evictLoop, Option.some.injEq, Prod.mk.injEq] at h
    exact h.2.2.symm
  | cons k ks ih =>
    intro c m tied m' tied' c2 hwf h
    simp only [evictLoop] at h
    obtain ⟨hshape, -⟩ := compute_score_snd c k t loc now hr
    rcases hcs : compute_score c k t loc now hr with ⟨r, c1⟩
    rw [hcs] at h hshape
    simp only at hshape
    rw [dGetDefault0_of_isSome c.access_freq k (hwf k (List.mem_cons_self k ks))] at hshape
    have hc1 : c1 = c := hshape
    rw [hc1] at h
    have hwf' : ∀ j ∈ ks, (dGet c.access_freq j).isSome :=
      fun j hj => hwf j (List.mem_cons_of_mem k hj)
    cases r with
    | none => simp at h
    | some s =>
      simp only at h
      cases m with
      | none => exact ih c _ _ m' tied' c2 hwf' h
      | some mv =>
        simp only at h
        by_cases h1 : s < mv
        · rw [if_pos h1] at h
          exact ih c _ _ m' tied' c2 hwf' h
        · rw [if_neg h1] at h
          by_cases h2 : |s - mv| < tol
          · rw [if_pos h2] at h
            exact ih c _ _ m' tied' c2 hwf' h
          · rw [if_neg h2] at h
            exact ih c _ _ m' tied' c2 hwf' h

/-- Full specification of a completed `evict` on a non-empty cache:
the victim is a cache key; all three dictionaries lose exactly its entry
(`access_freq` through a `defaultdict`-transparent variant `af`); the victim
belongs to the final tied list, whose members' scores are all within `tol`
of the minimum score `μ` over all keys; the victim maximizes `last_access`
over the tied list; and when every key within `tol` of `μ` scores exactly
`μ`, the tied list is precisely the keys scoring `μ`. -/
theorem evict_spec (c c' : TLCA_ACR_Cache K V) (t : Option ℚ)
    (loc : Option (ℚ × ℚ)) (now hr : ℚ)
    (h : evict c t loc now hr = some c') (hne : c.cache ≠ []) :
    ∃ kev af tied μ,
      freqSame c.access_freq af ∧
      c' = { c with cache := dDel c.cache kev,
                    access_freq := dDel af kev,
                    last_access := dDel c.last_access kev } ∧
      kev ∈ c.current_keys ∧
      kev ∈ tied ∧
      (∀ j ∈ tied, j ∈ c.current_keys) ∧
      (∀ j ∈ tied, (dGet c.last_access j).getD 0 ≤ (dGet c.last_access kev).getD 0) ∧
      (∀ k ∈ c.current_keys, ((compute_score c k t loc now hr).1).isSome) ∧
      qListMin (c.current_keys.map (scoreD c t loc now hr)) = some μ ∧
      (∀ k ∈ tied, |scoreD c t loc now hr k - μ| < tol) ∧
      ((∀ k ∈ c.current_keys,
          scoreD c t loc now hr k = μ ∨ ¬ |scoreD c t loc now hr k - μ| < tol) →
        tied = c.current_keys.filter (fun k => decide (scoreD c t loc now hr k = μ))) := by
  unfold evict at h
  rcases hloop : evictLoop t loc now hr c (c.cache.map Prod.fst) none [] with _ | ⟨m', tied, c1⟩
  · rw [hloop] at h; cases h
  · rw [hloop] at h
    obtain ⟨af, hc1, hfs⟩ :=
      evictLoop_shape (c.cache.map Prod.fst) c none [] m' tied c1 hloop
    have hbridge := evictLoop_map_eq_scan c t loc now hr (c.cache.map Prod.fst) none []
    rw [hloop] at hbridge
    simp only [Option.map_some'] at hbridge
    have hall : ∀ k ∈ c.cache.map Prod.fst, ((compute_score c k t loc now hr).1).isSome :=
      scan_isSome_scores _ _ _ _ _ hbridge.symm
    have hscanT := scan_eq_scanT (fun k => (compute_score c k t loc now hr).1)
      (c.cache.map Prod.fst) none [] hall
    rw [← hbridge] at hscanT
    have hpair : (m', tied) =
        scanT (scoreD c t loc now hr) (c.cache.map Prod.fst) none [] := by
      have := hscanT
      simp only [Option.some.injEq] at this
      exact this
    obtain ⟨k0, krest, hkeys⟩ : ∃ k0 krest, c.cache.map Prod.fst = k0 :: krest := by
      cases hk : c.cache.map Prod.fst with
      | nil => exact absurd (List.map_eq_nil_iff.mp hk) hne
      | cons a l => exact ⟨a, l, rfl⟩
    have htne : tied ≠ [] := by
      have := scanT_tied_ne_nil (scoreD c t loc now hr) (c.cache.map Prod.fst) none []
        (Or.inr ⟨rfl, by rw [hkeys]; exact List.cons_ne_nil _ _⟩)
      rw [← hpair] at this
      exact this
    simp only at h
    rcases htied : tied with _ | ⟨t0, ts⟩
    · exact absurd htied htne
    · rw [htied] at h
      simp only at h
      rcases hmax : maxByLA c1.last_access t0 ts with _ | kev
      · rw [hmax] at h; simp at h
      · rw [hmax] at h
        simp only [Option.some.injEq] at h
        have hla1 : c1.last_access = c.last_access := by rw [hc1]
        rw [hla1] at hmax
        obtain ⟨hmem0, hbest, hdom⟩ := maxByLA_spec c.last_access ts t0 kev hmax
        -- the scan viewed from its first step
        have hstep : scanT (scoreD c t loc now hr) (c.cache.map Prod.fst) none [] =
            scanT (scoreD c t loc now hr) krest (some (scoreD c t loc now hr k0)) [k0] := by
          rw [hkeys]; rfl
        have hpair' : (m', tied) =
            scanT (scoreD c t loc now hr) krest (some (scoreD c t loc now hr k0)) [k0] := by
          rw [hpair, hstep]
        -- the global minimum
        have hμex : ∃ μ, optMin (some (scoreD c t loc now hr k0))
            (qListMin (krest.map (scoreD c t loc now hr))) = some μ := by
          cases hq : qListMin (krest.map (scoreD c t loc now hr)) with
          | none => exact ⟨scoreD c t loc now hr k0, rfl⟩
          | some w => exact ⟨min (scoreD c t loc now hr k0) w, rfl⟩
        obtain ⟨μ, hμ⟩ := hμex
        have hμkeys : qListMin (c.current_keys.map (scoreD c t loc now hr)) = some μ := by
          rw [current_keys, hkeys, List.map_cons, optMin_qListMin_cons_self]
          exact hμ
        have hminT := scanT_min (scoreD c t loc now hr) krest (scoreD c t loc now hr k0) [k0]
        have hm' : m' = some μ := by
          have := congrArg Prod.fst hpair'
          simp only at this
          rw [this, hminT, hμ]
        have htolT := scanT_tol (scoreD c t loc now hr) krest (scoreD c t loc now hr k0) [k0]
          (by
            intro j hj
            simp only [List.mem_singleton] at hj
            subst hj
            simpa using tol_pos)
        have hmemT := scanT_mem (scoreD c t loc now hr) krest
          (some (scoreD c t loc now hr k0)) [k0]
        have htmem : ∀ j ∈ tied, j ∈ c.current_keys := by
          intro j hj
          have hj2 : j ∈ (scanT (scoreD c t loc now hr) krest
              (some (scoreD c t loc now hr k0)) [k0]).2 := by
            rw [← congrArg Prod.snd hpair']
            exact hj
          rcases hmemT j hj2 with hm | hm
          · rw [current_keys, hkeys]
            exact List.mem_cons_of_mem _ hm
          · simp only [List.mem_singleton] at hm
            rw [current_keys, hkeys, hm]
            exact List.mem_cons_self _ _
        have hkev_tied : kev ∈ tied := by
          rw [htied]
          rcases hmem0 with hm | hm
          · exact hm ▸ List.mem_cons_self t0 ts
          · exact List.mem_cons_of_mem t0 hm
        refine ⟨kev, af, tied, μ, hfs, ?_, ?_, hkev_tied, htmem, ?_, hall, hμkeys, ?_, ?_⟩
        · rw [← h, hc1]
        · exact htmem kev hkev_tied
        · intro j hj
          rw [htied] at hj
          rcases List.mem_cons.1 hj with hj | hj
          · exact hj ▸ hbest
          · exact hdom j hj
        · intro k hk
          have hk2 : k ∈ (scanT (scoreD c t loc now hr) krest
              (some (scoreD c t loc now hr k0)) [k0]).2 := by
            rw [← congrArg Prod.snd hpair']
            exact hk
          obtain ⟨μ2, hμ2, htol2⟩ := htolT k hk2
          have : μ2 = μ := by
            rw [hminT, hμ] at hμ2
            simp only [Option.some.injEq] at hμ2
            exact hμ2.symm
          rw [← this]
          exact htol2
        · intro hex
          have hexT := scanT_exact (scoreD c t loc now hr) krest
            (scoreD c t loc now hr k0) μ [k0] hμ
            (hex k0 (by rw [current_keys, hkeys]; exact List.mem_cons_self _ _))
            (by
              intro j hj
              simp only [List.mem_singleton] at hj
              subst hj
              exact ⟨by simpa using tol_pos, fun _ => rfl⟩)
            (by
              intro j hj
              exact hex j (by rw [current_keys, hkeys]; exact List.mem_cons_of_mem _ hj))
          have htied_eq : tied = (if scoreD c t loc now hr k0 = μ then [k0] else []) ++
              krest.filter (fun k => decide (scoreD c t loc now hr k = μ)) := by
            have := congrArg Prod.snd hpair'
            simp only at this
            rw [this, hexT]
          rw [htied_eq, current_keys, hkeys, List.filter_cons]
          by_cases hs : scoreD c t loc now hr k0 = μ
          · simp [hs]
          · simp [hs]

/-- When all cache keys are present in `access_freq`, the `af` of
`evict_spec` is the original map: the deletion applies to `c.access_freq`
itself. -/
theorem evict_spec_wf (c c' : TLCA_ACR_Cache K V) (t : Option ℚ)
    (loc : Option (ℚ × ℚ)) (now hr : ℚ)
    (h : evict c t loc now hr = some c') (hne : c.cache ≠ [])
    (hwf : ∀ k ∈ c.current_keys, (dGet c.access_freq k).isSome) :
    ∃ kev, kev ∈ c.current_keys ∧
      c' = { c with cache := dDel c.cache kev,
                    access_freq := dDel c.access_freq kev,
                    last_access := dDel c.last_access kev } := by
  have hu := h
  unfold evict at hu
  rcases hloop : evictLoop t loc now hr c (c.cache.map Prod.fst) none [] with _ | ⟨m', tied, c1⟩
  · rw [hloop] at hu; cases hu
  · have hc1 : c1 = c := evictLoop_wf_state (c.cache.map Prod.fst) c none [] m' tied c1
      (fun k hk => hwf k hk) hloop
    obtain ⟨kev, af, tied2, μ, hfs, hc', hkev, -⟩ := evict_spec c c' t loc now hr h hne
    obtain ⟨af2, hshape, -⟩ :=
      evictLoop_shape (c.cache.map Prod.fst) c none [] m' tied c1 hloop
    -- identify `af`: rerun the tail of `evict` with `c1 = c`
    rw [hloop] at hu
    simp only at hu
    rcases htied : tied with _ | ⟨t0, ts⟩
    · rw [htied] at hu
      simp only at hu
      rw [hc1] at hu
      simp only [Option.some.injEq] at hu
      -- `evict` returned `c` unchanged, contradicting that it deleted `kev`
      -- from a non-empty cache... in fact this case cannot occur:
      exfalso
      have := scanT_tied_ne_nil (scoreD c t loc now hr) (c.cache.map Prod.fst) none []
        (Or.inr ⟨rfl, by
          intro hmap
          exact hne (List.map_eq_nil_iff.mp hmap)⟩)
      have hbridge := evictLoop_map_eq_scan c t loc now hr (c.cache.map Prod.fst) none []
      rw [hloop] at hbridge
      simp only [Option.map_some'] at hbridge
      have hall : ∀ k ∈ c.cache.map Prod.fst,
          ((compute_score c k t loc now hr).1).isSome :=
        scan_isSome_scores _ _ _ _ _ hbridge.symm
      have hscanT := scan_eq_scanT (fun k => (compute_score c k t loc now hr).1)
        (c.cache.map Prod.fst) none [] hall
      rw [← hbridge] at hscanT
      simp only [Option.some.injEq] at hscanT
      have h2 : tied = (scanT (scoreD c t loc now hr)
          (c.cache.map Prod.fst) none []).2 := congrArg Prod.snd hscanT
      rw [htied] at h2
      exact ‹(scanT (scoreD c t loc now hr) (c.cache.map Prod.fst) none []).2 ≠ []›
        h2.symm
    · rw [htied] at hu
      simp only at hu
      rcases hmax : maxByLA c1.last_access t0 ts with _ | kev2
      · rw [hmax] at hu; simp at hu
      · rw [hmax] at hu
        simp only [Option.some.injEq] at hu
        rw [hc1] at hu
        refine ⟨kev2, ?_, hu.symm⟩
        have hla1 : c1.last_access = c.last_access := by rw [hc1]
        rw [hla1] at hmax
        obtain ⟨hmem0, -, -⟩ := maxByLA_spec c.last_access ts t0 kev2 hmax
        have hbridge := evictLoop_map_eq_scan c t loc now hr (c.cache.map Prod.fst) none []
        rw [hloop] at hbridge
        simp only [Option.map_some'] at hbridge
        have hall : ∀ k ∈ c.cache.map Prod.fst,
            ((compute_score c k t loc now hr).1).isSome :=
          scan_isSome_scores _ _ _ _ _ hbridge.symm
        have hscanT := scan_eq_scanT (fun k => (compute_score c k t loc now hr).1)
          (c.cache.map Prod.fst) none [] hall
        rw [← hbridge] at hscanT
        simp only [Option.some.injEq] at hscanT
        have htmem := scanT_mem (scoreD c t loc now hr) (c.cache.map Prod.fst) none []
        have hkev2 : kev2 ∈ tied := by
          rw [htied]
          rcases hmem0 with hm | hm
          · exact hm ▸ List.mem_cons_self t0 ts
          · exact List.mem_cons_of_mem t0 hm
        have h2 : tied = (scanT (scoreD c t loc now hr)
            (c.cache.map Prod.fst) none []).2 := congrArg Prod.snd hscanT
        have hmem2 : kev2 ∈ (scanT (scoreD c t loc now hr)
            (c.cache.map Prod.fst) none []).2 := by
          rw [← h2]
          exact hkev2
        rcases htmem kev2 hmem2 with hm | hm
        · exact hm
        · simp at hm

/-- Calling `evict` on an empty cache is a completed no-op. -/
theorem evict_empty (c : TLCA_ACR_Cache K V) (t : Option ℚ)
    (loc : Option (ℚ × ℚ)) (now hr : ℚ) (hc : c.cache = []) :
    evict c t loc now hr = some c := by
  unfold evict
  rw [hc]
  rfl

/-- With all cache keys present in `last_access`, `evict` always
completes. -/
theorem evict_isSome_of_wf (c : TLCA_ACR_Cache K V) (t : Option ℚ)
    (loc : Option (ℚ × ℚ)) (now hr : ℚ)
    (hwf : ∀ k ∈ c.current_keys, (dGet c.last_access k).isSome) :
    (evict c t loc now hr).isSome := by
  have hall : ∀ k ∈ c.cache.map Prod.fst,
      ((compute_score c k t loc now hr).1).isSome := by
    intro k hk
    rw [compute_score_fst_isSome]
    exact hwf k hk
  have hscan := scan_eq_scanT (fun k => (compute_score c k t loc now hr).1)
    (c.cache.map Prod.fst) none [] hall
  have hbridge := evictLoop_map_eq_scan c t loc now hr (c.cache.map Prod.fst) none []
  rw [hscan] at hbridge
  rcases hloop : evictLoop t loc now hr c (c.cache.map Prod.fst) none [] with _ | ⟨m', tied, c1⟩
  · rw [hloop] at hbridge; simp at hbridge
  · rw [hloop, Option.map_some'] at hbridge
    simp only [Option.some.injEq] at hbridge
    unfold evict
    rw [hloop]
    simp only
    rcases htied : tied with _ | ⟨t0, ts⟩
    · rfl
    · obtain ⟨af, hshape, -⟩ :=
        evictLoop_shape (c.cache.map Prod.fst) c none [] m' tied c1 hloop
      have hla1 : c1.last_access = c.last_access := by rw [hshape]
      have htmem := scanT_mem (scoreD c t loc now hr) (c.cache.map Prod.fst) none []
      have hb2 : tied = (scanT (scoreD c t loc now hr)
          (c.cache.map Prod.fst) none []).2 := congrArg Prod.snd hbridge
      have htied_keys : ∀ j ∈ tied, j ∈ c.cache.map Prod.fst := by
        intro j hj
        have hj2 : j ∈ (scanT (scoreD c t loc now hr)
            (c.cache.map Prod.fst) none []).2 := by
          rw [← hb2]
          exact hj
        rcases htmem j hj2 with hm | hm
        · exact hm
        · simp at hm
      have hmax : (maxByLA c1.last_access t0 ts).isSome := by
        rw [hla1]
        refine maxByLA_isSome c.last_access ts t0 ?_ ?_
        · exact hwf t0 (htied_keys t0 (htied ▸ List.mem_cons_self t0 ts))
        · intro j hj
          exact hwf j (htied_keys j (htied ▸ List.mem_cons_of_mem t0 hj))
      obtain ⟨kev, hkev⟩ := Option.isSome_iff_exists.mp hmax
      simp only
      rw [hkev]
      rfl

/-- Case split of a completed `evict`: no-op on an empty cache, a single
deletion from all three dictionaries on a non-empty one. -/
theorem evict_cases (c c' : TLCA_ACR_Cache K V) (t : Option ℚ)
    (loc : Option (ℚ × ℚ)) (now hr : ℚ) (h : evict c t loc now hr = some c') :
    (c.cache = [] ∧ c' = c) ∨
    (c.cache ≠ [] ∧ ∃ kev af, freqSame c.access_freq af ∧ kev ∈ c.current_keys ∧
      c' = { c with cache := dDel c.cache kev,
                    access_freq := dDel af kev,
                    last_access := dDel c.last_access kev }) := by
  by_cases hc : c.cache = []
  · left
    refine ⟨hc, ?_⟩
    rw [evict_empty c t loc now hr hc] at h
    simp only [Option.some.injEq] at h
    exact h.symm
  · right
    obtain ⟨kev, af, tied, μ, hfs, hc', hkev, -⟩ := evict_spec c c' t loc now hr h hc
    exact ⟨hc, kev, af, hfs, hkev, hc'⟩

theorem evict_capacity (c c' : TLCA_ACR_Cache K V) (t : Option ℚ)
    (loc : Option (ℚ × ℚ)) (now hr : ℚ) (h : evict c t loc now hr = some c') :
    c'.capacity = c.capacity := by
  rcases evict_cases c c' t loc now hr h with ⟨-, rfl⟩ | ⟨-, kev, af, -, -, rfl⟩ <;> rfl

theorem evict_cache_length_le (c c' : TLCA_ACR_Cache K V) (t : Option ℚ)
    (loc : Option (ℚ × ℚ)) (now hr : ℚ) (h : evict c t loc now hr = some c') :
    c'.cache.length ≤ c.cache.length := by
  rcases evict_cases c c' t loc now hr h with ⟨-, rfl⟩ | ⟨-, kev, af, -, -, rfl⟩
  · exact le_refl _
  · exact dDel_length_le c.cache kev

theorem evict_nonempty_length (c c' : TLCA_ACR_Cache K V) (t : Option ℚ)
    (loc : Option (ℚ × ℚ)) (now hr : ℚ) (h : evict c t loc now hr = some c')
    (hne : c.cache ≠ []) : c'.cache.length + 1 = c.cache.length := by
  rcases evict_cases c c' t loc now hr h with ⟨hc, rfl⟩ | ⟨-, kev, af, -, hkev, rfl⟩
  · exact absurd hc hne
  · exact dDel_length_of_isSome c.cache kev ((mem_map_fst_iff_isSome c.cache kev).1 hkev)

theorem evict_absent_preserved (c c' : TLCA_ACR_Cache K V) (t : Option ℚ)
    (loc : Option (ℚ × ℚ)) (now hr : ℚ) (h : evict c t loc now hr = some c')
    (key : K) (habs : dGet c.cache key = none) : dGet c'.cache key = none := by
  rcases evict_cases c c' t loc now hr h with ⟨-, rfl⟩ | ⟨-, kev, af, -, -, rfl⟩
  · exact habs
  · exact dGet_dDel_of_none c.cache kev key habs

/-! ## `put`: unfolding lemmas -/

theorem put_of_mem (c : TLCA_ACR_Cache K V) (key : K) (v : V) (t : Option ℚ)
    (loc : Option (ℚ × ℚ)) (now hr : ℚ) (hmem : (dGet c.cache key).isSome) :
    put c key v t loc now hr = some (putStore c key v now) := by
  unfold put
  rw [if_neg]
  rintro ⟨h1, -⟩
  rw [Option.isNone_iff_eq_none] at h1
  rw [h1] at hmem
  simp at hmem

theorem put_of_new_room (c : TLCA_ACR_Cache K V) (key : K) (v : V) (t : Option ℚ)
    (loc : Option (ℚ × ℚ)) (now hr : ℚ) (hnew : dGet c.cache key = none)
    (hroom : c.cache.length < c.capacity) :
    put c key v t loc now hr = some (putStore c key v now) := by
  unfold put
  rw [if_neg]
  rintro ⟨-, h2⟩
  exact absurd hroom (not_lt.mpr h2)

theorem put_of_new_full (c c' : TLCA_ACR_Cache K V) (key : K) (v : V)
    (t : Option ℚ) (loc : Option (ℚ × ℚ)) (now hr : ℚ)
    (hnew : dGet c.cache key = none) (hfull : c.capacity ≤ c.cache.length)
    (h : put c key v t loc now hr = some c') :
    ∃ c1, evict c t loc now hr = some c1 ∧ c' = putStore c1 key v now := by
  unfold put at h
  rw [if_pos ⟨by rw [hnew]; rfl, hfull⟩] at h
  rcases hev : evict c t loc now hr with _ | c1
  · rw [hev] at h; cases h
  · rw [hev] at h
    simp only [Option.some.injEq] at h
    exact ⟨c1, rfl, h.symm⟩

theorem put_some_cases (c c' : TLCA_ACR_Cache K V) (key : K) (v : V)
    (t : Option ℚ) (loc : Option (ℚ × ℚ)) (now hr : ℚ)
    (h : put c key v t loc now hr = some c') :
    c' = putStore c key v now ∨
    (dGet c.cache key = none ∧ c.capacity ≤ c.cache.length ∧
      ∃ c1, evict c t loc now hr = some c1 ∧ c' = putStore c1 key v now) := by
  by_cases hcond : (dGet c.cache key).isNone ∧ c.capacity ≤ c.cache.length
  · right
    have hnew : dGet c.cache key = none := Option.isNone_iff_eq_none.mp hcond.1
    exact ⟨hnew, hcond.2, put_of_new_full c c' key v t loc now hr hnew hcond.2 h⟩
  · left
    unfold put at h
    rw [if_neg hcond] at h
    simp only [Option.some.injEq] at h
    exact h.symm

/-! ## The reachable-state invariant -/

theorem Inv_mkCache (K V : Type) [DecidableEq K]
    (capacity : Nat) (alpha beta gamma delta epsilon : ℚ) :
    Inv (mkCache K V capacity alpha beta gamma delta epsilon) := by
  refine ⟨?_, ?_, ?_, ?_, ?_⟩ <;> simp [mkCache, dGet, nodupKeys]

theorem Inv_putStore (c : TLCA_ACR_Cache K V) (key : K) (v : V) (now : ℚ)
    (hInv : Inv c) : Inv (putStore c key v now) := by
  obtain ⟨h1, h2, hn1, hn2, hn3⟩ := hInv
  simp only [Inv, putStore]
  refine ⟨?_, ?_, nodupKeys_dSet _ _ _ hn1, nodupKeys_dSet _ _ _ hn2,
    nodupKeys_dSet _ _ _ hn3⟩
  · intro k hk
    by_cases hkey : k = key
    · subst hkey
      refine ⟨⟨(dGet c.access_freq k).getD 0 + 1, ?_, ?_⟩, ?_⟩
      · exact dGet_dSet_self c.access_freq k _
      · omega
      · rw [dGet_dSet_self c.last_access k now]; rfl
    · rw [dGet_dSet_ne c.cache key k _ hkey] at hk
      obtain ⟨⟨n, hn, hn1'⟩, hla⟩ := h1 k hk
      refine ⟨⟨n, ?_, hn1'⟩, ?_⟩
      · rw [dGet_dSet_ne c.access_freq key k _ hkey]
        exact hn
      · rw [dGet_dSet_ne c.last_access key k _ hkey]
        exact hla
  · intro k hk
    by_cases hkey : k = key
    · subst hkey
      rw [dGet_dSet_self c.cache k _] at hk
      cases hk
    · rw [dGet_dSet_ne c.cache key k _ hkey] at hk
      obtain ⟨hf, hl⟩ := h2 k hk
      rw [dGet_dSet_ne c.access_freq key k _ hkey,
          dGet_dSet_ne c.last_access key k _ hkey]
      exact ⟨hf, hl⟩

theorem Inv_get (c : TLCA_ACR_Cache K V) (key : K) (t : Option ℚ)
    (loc : Option (ℚ × ℚ)) (now : ℚ) (hInv : Inv c) :
    Inv (get c key t loc now).2 := by
  obtain ⟨h1, h2, hn1, hn2, hn3⟩ := hInv
  unfold TLCA_ACR_Cache.get
  cases hk : dGet c.cache key with
  | none => exact ⟨h1, h2, hn1, hn2, hn3⟩
  | some p =>
    refine ⟨?_, ?_, hn1, nodupKeys_dSet _ _ _ hn2, nodupKeys_dSet _ _ _ hn3⟩
    · intro k hkc
      simp only at hkc
      by_cases hkey : k = key
      · subst hkey
        refine ⟨⟨(dGet c.access_freq k).getD 0 + 1, dGet_dSet_self _ _ _, by omega⟩, ?_⟩
        rw [dGet_dSet_self c.last_access k now]; rfl
      · obtain ⟨⟨n, hn, hge⟩, hla⟩ := h1 k hkc
        refine ⟨⟨n, ?_, hge⟩, ?_⟩
        · rw [dGet_dSet_ne c.access_freq key k _ hkey]; exact hn
        · rw [dGet_dSet_ne c.last_access key k _ hkey]; exact hla
    · intro k hkc
      simp only at hkc
      have hkey : k ≠ key := by
        intro he
        rw [he, hk] at hkc
        cases hkc
      obtain ⟨hf, hl⟩ := h2 k hkc
      rw [dGet_dSet_ne c.access_freq key k _ hkey,
          dGet_dSet_ne c.last_access key k _ hkey]
      exact ⟨hf, hl⟩

theorem Inv_evict (c c' : TLCA_ACR_Cache K V) (t : Option ℚ)
    (loc : Option (ℚ × ℚ)) (now hr : ℚ) (hInv : Inv c)
    (h : evict c t loc now hr = some c') : Inv c' := by
  obtain ⟨h1, h2, hn1, hn2, hn3⟩ := hInv
  by_cases hc : c.cache = []
  · rw [evict_empty c t loc now hr hc] at h
    simp only [Option.some.injEq] at h
    rw [← h]
    exact ⟨h1, h2, hn1, hn2, hn3⟩
  · have hwfF : ∀ k ∈ c.current_keys, (dGet c.access_freq k).isSome := by
      intro k hk
      obtain ⟨⟨n, hn, -⟩, -⟩ := h1 k ((mem_map_fst_iff_isSome c.cache k).1 hk)
      rw [hn]; rfl
    obtain ⟨kev, hkev, hc'⟩ := evict_spec_wf c c' t loc now hr h hc hwfF
    subst hc'
    refine ⟨?_, ?_, nodupKeys_dDel _ _ hn1, nodupKeys_dDel _ _ hn2,
      nodupKeys_dDel _ _ hn3⟩
    · intro k hk
      simp only at hk
      have hkne : k ≠ kev := by
        intro he
        rw [he, dGet_dDel_self_of_nodup c.cache kev hn1] at hk
        cases hk
      rw [dGet_dDel_ne c.cache kev k hkne] at hk
      obtain ⟨⟨n, hn, hge⟩, hla⟩ := h1 k hk
      refine ⟨⟨n, ?_, hge⟩, ?_⟩
      · rw [dGet_dDel_ne c.access_freq kev k hkne]; exact hn
      · rw [dGet_dDel_ne c.last_access kev k hkne]; exact hla
    · intro k hk
      simp only at hk ⊢
      by_cases hkne : k = kev
      · subst hkne
        exact ⟨dGet_dDel_self_of_nodup c.access_freq k hn2,
               dGet_dDel_self_of_nodup c.last_access k hn3⟩
      · rw [dGet_dDel_ne c.cache kev k hkne] at hk
        obtain ⟨hf, hl⟩ := h2 k hk
        rw [dGet_dDel_ne c.access_freq kev k hkne,
            dGet_dDel_ne c.last_access kev k hkne]
        exact ⟨hf, hl⟩

theorem Inv_put (c c' : TLCA_ACR_Cache K V) (key : K) (v : V) (t : Option ℚ)
    (loc : Option (ℚ × ℚ)) (now hr : ℚ) (hInv : Inv c)
    (h : put c key v t loc now hr = some c') : Inv c' := by
  rcases put_some_cases c c' key v t loc now hr h with hc' | ⟨-, -, c1, hev, hc'⟩
  · subst hc'
    exact Inv_putStore c key v now hInv
  · subst hc'
    exact Inv_putStore c1 key v now (Inv_evict c c1 t loc now hr hInv hev)

theorem Inv_step (c c' : TLCA_ACR_Cache K V) (op : Op K V) (hInv : Inv c)
    (h : step c op = some c') : Inv c' := by
  cases op with
  | get key t loc now =>
    simp only [step, Option.some.injEq] at h
    rw [← h]
    exact Inv_get c key t loc now hInv
  | put key v t loc now hr => exact Inv_put c c' key v t loc now hr hInv h
  | evict t loc now hr => exact Inv_evict c c' t loc now hr hInv h
  | listKeys =>
    simp only [step, Option.some.injEq] at h
    rw [← h]
    exact hInv

theorem Inv_run (ops : List (Op K V)) :
    ∀ (c c' : TLCA_ACR_Cache K V), Inv c → run c ops = some c' → Inv c' := by
  induction ops with
  | nil =>
    intro c c' hInv h
    simp only [run, Option.some.injEq] at h
    rw [← h]
    exact hInv
  | cons op ops ih =>
    intro c c' hInv h
    simp only [run] at h
    rcases hs : step c op with _ | c1
    · rw [hs] at h; cases h
    · rw [hs] at h
      exact ih c1 c' (Inv_step c c1 op hInv hs) h

/-! ## Size and capacity along runs -/

theorem get_snd_cache (c : TLCA_ACR_Cache K V) (key : K) (t : Option ℚ)
    (loc : Option (ℚ × ℚ)) (now : ℚ) :
    ((get c key t loc now).2).cache = c.cache := by
  unfold TLCA_ACR_Cache.get
  cases dGet c.cache key <;> rfl

theorem get_snd_capacity (c : TLCA_ACR_Cache K V) (key : K) (t : Option ℚ)
    (loc : Option (ℚ × ℚ)) (now : ℚ) :
    ((get c key t loc now).2).capacity = c.capacity := by
  unfold TLCA_ACR_Cache.get
  cases dGet c.cache key <;> rfl

theorem putStore_capacity (c : TLCA_ACR_Cache K V) (key : K) (v : V) (now : ℚ) :
    (putStore c key v now).capacity = c.capacity := rfl

theorem putStore_length_of_mem (c : TLCA_ACR_Cache K V) (key : K) (v : V)
    (now : ℚ) (h : (dGet c.cache key).isSome) :
    (putStore c key v now).cache.length = c.cache.length :=
  dSet_length_of_isSome c.cache key _ h

theorem putStore_length_of_new (c : TLCA_ACR_Cache K V) (key : K) (v : V)
    (now : ℚ) (h : dGet c.cache key = none) :
    (putStore c key v now).cache.length = c.cache.length + 1 :=
  dSet_length_of_none c.cache key _ h

theorem step_capacity (c c' : TLCA_ACR_Cache K V) (op : Op K V)
    (h : step c op = some c') : c'.capacity = c.capacity := by
  cases op with
  | get key t loc now =>
    simp only [step, Option.some.injEq] at h
    rw [← h]
    exact get_snd_capacity c key t loc now
  | put key v t loc now hr =>
    rcases put_some_cases c c' key v t loc now hr h with hc' | ⟨-, -, c1, hev, hc'⟩
    · rw [hc']; rfl
    · rw [hc', putStore_capacity]
      exact evict_capacity c c1 t loc now hr hev
  | evict t loc now hr => exact evict_capacity c c' t loc now hr h
  | listKeys =>
    simp only [step, Option.some.injEq] at h
    rw [← h]

theorem step_size (c c' : TLCA_ACR_Cache K V) (op : Op K V)
    (hpos : 0 < c.capacity) (hsize : c.cache.length ≤ c.capacity)
    (h : step c op = some c') : c'.cache.length ≤ c.capacity := by
  cases op with
  | get key t loc now =>
    simp only [step, Option.some.injEq] at h
    rw [← h, get_snd_cache]
    exact hsize
  | put key v t loc now hr =>
    simp only [step] at h
    by_cases hcond : (dGet c.cache key).isNone ∧ c.capacity ≤ c.cache.length
    · have hnew : dGet c.cache key = none := Option.isNone_iff_eq_none.mp hcond.1
      obtain ⟨c1, hev, hc'⟩ := put_of_new_full c c' key v t loc now hr hnew hcond.2 h
      subst hc'
      have hne : c.cache ≠ [] := by
        intro hnil
        have h2 := hcond.2
        rw [hnil] at h2
        simp at h2
        omega
      have hlen1 : c1.cache.length + 1 = c.cache.length :=
        evict_nonempty_length c c1 t loc now hr hev hne
      have hkey1 : dGet c1.cache key = none :=
        evict_absent_preserved c c1 t loc now hr hev key hnew
      rw [putStore_length_of_new c1 key v now hkey1]
      omega
    · have hps : put c key v t loc now hr = some (putStore c key v now) := by
        unfold put
        rw [if_neg hcond]
      rw [hps] at h
      simp only [Option.some.injEq] at h
      subst h
      by_cases hmem : (dGet c.cache key).isSome
      · rw [putStore_length_of_mem c key v now hmem]
        exact hsize
      · rw [Option.not_isSome_iff_eq_none] at hmem
        rw [putStore_length_of_new c key v now hmem]
        have hroom : c.cache.length < c.capacity := by
          by_contra hc2
          push_neg at hc2
          exact hcond ⟨by rw [hmem]; rfl, hc2⟩
        omega
  | evict t loc now hr =>
    exact le_trans (evict_cache_length_le c c' t loc now hr h) hsize
  | listKeys =>
    simp only [step, Option.some.injEq] at h
    rw [← h]
    exact hsize

theorem run_size (ops : List (Op K V)) :
    ∀ (c c' : TLCA_ACR_Cache K V), 0 < c.capacity → c.cache.length ≤ c.capacity →
      run c ops = some c' → c'.cache.length ≤ c'.capacity ∧ c'.capacity = c.capacity := by
  induction ops with
  | nil =>
    intro c c' _ hsize h
    simp only [run, Option.some.injEq] at h
    rw [← h]
    exact ⟨hsize, rfl⟩
  | cons op ops ih =>
    intro c c' hpos hsize h
    simp only [run] at h
    rcases hs : step c op with _ | c1
    · rw [hs] at h; cases h
    · rw [hs] at h
      have hcap : c1.capacity = c.capacity := step_capacity c c1 op hs
      have hsz : c1.cache.length ≤ c1.capacity := by
        rw [hcap]
        exact step_size c c1 op hpos hsize hs
      obtain ⟨ha, hb⟩ := ih c1 c' (by rw [hcap]; exact hpos) hsz h
      exact ⟨ha, by rw [hb, hcap]⟩

/-- First `put` of a key that is absent from a reachable state stores
frequency exactly 1. -/
theorem put_new_freq_one (c c' : TLCA_ACR_Cache K V) (key : K) (v : V)
    (t : Option ℚ) (loc : Option (ℚ × ℚ)) (now hr : ℚ) (hInv : Inv c)
    (hnew : dGet c.cache key = none) (h : put c key v t loc now hr = some c') :
    dGet c'.access_freq key = some 1 := by
  rcases put_some_cases c c' key v t loc now hr h with hc' | ⟨-, -, c1, hev, hc'⟩
  · subst hc'
    have hfr : dGet c.access_freq key = none := (hInv.2.1 key hnew).1
    show dGet (dSet c.access_freq key ((dGet c.access_freq key).getD 0 + 1)) key = some 1
    rw [dGet_dSet_self, hfr]
    rfl
  · subst hc'
    have hInv1 : Inv c1 := Inv_evict c c1 t loc now hr hInv hev
    have hnew1 : dGet c1.cache key = none :=
      evict_absent_preserved c c1 t loc now hr hev key hnew
    have hfr : dGet c1.access_freq key = none := (hInv1.2.1 key hnew1).1
    show dGet (dSet c1.access_freq key ((dGet c1.access_freq key).getD 0 + 1)) key = some 1
    rw [dGet_dSet_self, hfr]
    rfl

/-! ## Concrete caches used by witnesses and counterexamples -/

/-! ## The claims -/

/-- C1: For every cache constructed with a positive integer capacity, after
every completed public operation (get, put, evict, list_keys) in any
sequence of calls, the number of distinct keys in the cache is at most
capacity. -/
theorem C1_capacity_invariant (K V : Type) [DecidableEq K]
    (capacity : Nat) (alpha beta gamma delta epsilon : ℚ)
    (ops : List (Op K V)) (c' : TLCA_ACR_Cache K V)
    (hpos : 0 < capacity)
    (h : run (mkCache K V capacity alpha beta gamma delta epsilon) ops = some c') :
    c'.current_keys.length ≤ capacity := by
  obtain ⟨h1, h2⟩ := run_size ops (mkCache K V capacity alpha beta gamma delta epsilon)
    c' hpos (by simp [mkCache]) h
  rw [h2] at h1
  simpa [current_keys] using h1

theorem C1_capacity_invariant_witness :
    0 < 2 ∧
    run (mkCache Nat Nat 2 1 1 1 1 1) [Op.put 1 10 none none 1 0] = some c1ex ∧
    c1ex.current_keys.length ≤ 2 :=
  ⟨by decide, rfl,
   C1_capacity_invariant Nat Nat 2 1 1 1 1 1 [Op.put 1 10 none none 1 0] c1ex
     (by decide) rfl⟩

/-- C2 counterexample: in `c2ex` both keys score within `1e-5` of the
minimum and key 1 has the larger `last_access`, so the claim says key 1 is
evicted — but the code evicts key 2 (the keys left are `[1]`). -/
theorem C2_counterexample :
    (evict c2ex none none 2 0).map current_keys = some [1] ∧
    scoreD c2ex none none 2 0 2 < scoreD c2ex none none 2 0 1 ∧
    |scoreD c2ex none none 2 0 1 - scoreD c2ex none none 2 0 2| < tol ∧
    (dGet c2ex.last_access 2).getD 0 < (dGet c2ex.last_access 1).getD 0 :=
  ⟨by norm_num [evict, evictLoop, compute_score, dGetDefault0, dGet, maxByLA,
      dDel, c2ex, c2ex', tol, current_keys],
   by norm_num [scoreD, compute_score, dGetDefault0, dGet, c2ex, tol],
   by norm_num [scoreD, compute_score, dGetDefault0, dGet, c2ex, tol, abs],
   by norm_num [dGet, c2ex]⟩

/-- C2 (amended): for every completed `evict` on a non-empty cache, the
evicted key's score is within `1e-5` of the minimum score over all present
keys; and in the case where every key within the tolerance of the minimum
scores *exactly* the minimum, the evicted key scores the minimum and has
the largest `last_access_time` among the minimum scorers.  (The original
claim fails because the one-pass scan resets its candidate list on each
strictly smaller score, discarding earlier keys that are within tolerance
of the final minimum.) -/
theorem C2_amended_evict_victim (K V : Type) [DecidableEq K]
    (c c' : TLCA_ACR_Cache K V) (t : Option ℚ) (loc : Option (ℚ × ℚ))
    (now hr : ℚ) (hne : c.cache ≠ []) (h : evict c t loc now hr = some c') :
    ∃ μ, qListMin (c.current_keys.map (scoreD c t loc now hr)) = some μ ∧
    ∃ kev, kev ∈ c.current_keys ∧
      c'.cache = dDel c.cache kev ∧
      |scoreD c t loc now hr kev - μ| < tol ∧
      ((∀ k ∈ c.current_keys,
          scoreD c t loc now hr k = μ ∨ ¬ |scoreD c t loc now hr k - μ| < tol) →
        scoreD c t loc now hr kev = μ ∧
        ∀ k ∈ c.current_keys, scoreD c t loc now hr k = μ →
          (dGet c.last_access k).getD 0 ≤ (dGet c.last_access kev).getD 0) := by
  obtain ⟨kev, af, tied, μ, hfs, hc', hkev, hkevtied, htmem, hdom, hall, hμ, htol, hexact⟩ :=
    evict_spec c c' t loc now hr h hne
  refine ⟨μ, hμ, kev, hkev, by rw [hc'], htol kev hkevtied, ?_⟩
  intro hex
  have htied_eq := hexact hex
  constructor
  · have : kev ∈ c.current_keys.filter
        (fun k => decide (scoreD c t loc now hr k = μ)) := htied_eq ▸ hkevtied
    have := List.of_mem_filter this
    simpa using this
  · intro k hkmem hkμ
    have hk_tied : k ∈ tied := by
      rw [htied_eq]
      exact List.mem_filter.2 ⟨hkmem, by simpa using hkμ⟩
    exact hdom k hk_tied

theorem C2_amended_evict_victim_witness :
    c2ex.cache ≠ [] ∧ evict c2ex none none 2 0 = some c2ex' ∧
    (∃ μ, qListMin (c2ex.current_keys.map (scoreD c2ex none none 2 0)) = some μ ∧
    ∃ kev, kev ∈ c2ex.current_keys ∧
      c2ex'.cache = dDel c2ex.cache kev ∧
      |scoreD c2ex none none 2 0 kev - μ| < tol ∧
      ((∀ k ∈ c2ex.current_keys,
          scoreD c2ex none none 2 0 k = μ ∨ ¬ |scoreD c2ex none none 2 0 k - μ| < tol) →
        scoreD c2ex none none 2 0 kev = μ ∧
        ∀ k ∈ c2ex.current_keys, scoreD c2ex none none 2 0 k = μ →
          (dGet c2ex.last_access k).getD 0 ≤ (dGet c2ex.last_access kev).getD 0)) :=
  ⟨by decide,
   by norm_num [evict, evictLoop, compute_score, dGetDefault0, dGet, maxByLA,
      dDel, c2ex, c2ex', tol, current_keys],
   C2_amended_evict_victim Nat Nat c2ex c2ex' none none 2 0 (by decide)
     (by norm_num [evict, evictLoop, compute_score, dGetDefault0, dGet, maxByLA,
        dDel, c2ex, c2ex', tol, current_keys])⟩

/-- C3 counterexample: in `c3ex` (identity `time_fn`, `delta = 1`, all other
weights `0`) the call `compute_score(key 1, t = 0)` with current hour 7
returns `7 = delta * time_fn(current hour)` — not
`0 = delta * time_fn(0)` as the claim requires for the supplied `t = 0`. -/
theorem C3_counterexample :
    (compute_score c3ex 1 (some 0) none 1 7).1 = some 7 ∧
    c3ex.delta * c3ex.time_fn 0 = 0 ∧
    (compute_score c3ex 1 (some 0) none 1 7).1 ≠ some (c3ex.delta * c3ex.time_fn 0) :=
  ⟨by norm_num [compute_score, dGetDefault0, dGet, c3ex, tol],
   by norm_num [c3ex],
   by norm_num [compute_score, dGetDefault0, dGet, c3ex, tol]⟩

/-- C3 (amended): for every explicitly supplied *nonzero* time hint `t`,
`compute_score` evaluates its time term as `delta * time_fn(t)`,
independently of the current hour; the fallback to the current local hour
is used both when `t` is not supplied and when `t = 0`, because the source
selects the argument with Python truthiness (`t or hour`). -/
theorem C3_amended_time_hint (K V : Type) [DecidableEq K]
    (c : TLCA_ACR_Cache K V) (key : K) (tv : ℚ) (loc : Option (ℚ × ℚ))
    (now hr hr' : ℚ) :
    (tv ≠ 0 → compute_score c key (some tv) loc now hr =
      compute_score c key (some tv) loc now hr') ∧
    compute_score c key (some 0) loc now hr = compute_score c key none loc now hr ∧
    (tv ≠ 0 → ∀ la, dGet c.last_access key = some la →
      (compute_score c key (some tv) loc now hr).1 =
        some (c.alpha * ((dGet c.access_freq key).getD 0 : ℚ) +
              c.beta * (1 / (now - la + tol)) +
              c.gamma * c.context_fn () +
              c.delta * c.time_fn tv +
              c.epsilon * (match loc with
                           | none => c.loc_fn 0 0
                           | some p => c.loc_fn p.1 p.2))) := by
  refine ⟨?_, ?_, ?_⟩
  · intro htv
    unfold compute_score
    cases dGet c.last_access key with
    | none => rfl
    | some la =>
      simp only [if_neg htv]
  · unfold compute_score
    cases dGet c.last_access key with
    | none => rfl
    | some la => simp
  · intro htv la hla
    unfold compute_score
    rw [hla]
    simp only [if_neg htv]
    rw [dGetDefault0_fst]
    cases loc <;> rfl

theorem C3_amended_time_hint_witness :
    (5 : ℚ) ≠ 0 ∧
    compute_score c3ex 1 (some 5) none 1 7 = compute_score c3ex 1 (some 5) none 1 3 ∧
    compute_score c3ex 1 (some 0) none 1 7 = compute_score c3ex 1 none none 1 7 ∧
    (compute_score c3ex 1 (some 5) none 1 7).1 =
      some (c3ex.alpha * ((dGet c3ex.access_freq 1).getD 0 : ℚ) +
            c3ex.beta * (1 / ((1 : ℚ) - 1 + tol)) +
            c3ex.gamma * c3ex.context_fn () +
            c3ex.delta * c3ex.time_fn 5 +
            c3ex.epsilon * c3ex.loc_fn 0 0) :=
  ⟨by norm_num,
   (C3_amended_time_hint Nat Nat c3ex 1 5 none 1 7 3).1 (by norm_num),
   (C3_amended_time_hint Nat Nat c3ex 1 5 none 1 7 3).2.1,
   (C3_amended_time_hint Nat Nat c3ex 1 5 none 1 7 3).2.2 (by norm_num) 1 rfl⟩

/-- C4: For every cache whose number of keys equals its capacity, a put of
a key not currently present first removes exactly one existing key and then
inserts the new key, so the number of keys after the put is unchanged at
capacity. -/
theorem C4_put_at_capacity (K V : Type) [DecidableEq K]
    (c c' : TLCA_ACR_Cache K V) (key : K) (v : V) (t : Option ℚ)
    (loc : Option (ℚ × ℚ)) (now hr : ℚ)
    (hnew : dGet c.cache key = none) (hfull : c.cache.length = c.capacity)
    (hpos : 0 < c.capacity) (hnd : nodupKeys c.cache)
    (h : put c key v t loc now hr = some c') :
    c'.cache.length = c.capacity ∧
    dGet c'.cache key = some (v, now) ∧
    ∃ kev, kev ∈ c.current_keys ∧ kev ≠ key ∧ dGet c'.cache kev = none ∧
      ∀ j, j ≠ kev → j ≠ key → dGet c'.cache j = dGet c.cache j := by
  obtain ⟨c1, hev, hc'⟩ :=
    put_of_new_full c c' key v t loc now hr hnew (le_of_eq hfull.symm) h
  subst hc'
  have hne : c.cache ≠ [] := by
    intro hnil
    rw [hnil] at hfull
    simp at hfull
    omega
  rcases evict_cases c c1 t loc now hr hev with ⟨hc, -⟩ | ⟨-, kev, af, -, hkev, hc1⟩
  · exact absurd hc hne
  · have hkev_some : (dGet c.cache kev).isSome :=
      (mem_map_fst_iff_isSome c.cache kev).1 hkev
    have hkne : kev ≠ key := by
      intro he
      rw [he, hnew] at hkev_some
      cases hkev_some
    have hc1c : c1.cache = dDel c.cache kev := by rw [hc1]
    have hnew1 : dGet c1.cache key = none := by
      rw [hc1c]
      exact dGet_dDel_of_none c.cache kev key hnew
    refine ⟨?_, ?_, kev, hkev, hkne, ?_, ?_⟩
    · show (dSet c1.cache key (v, now)).length = c.capacity
      rw [dSet_length_of_none c1.cache key _ hnew1, hc1c]
      have := dDel_length_of_isSome c.cache kev hkev_some
      omega
    · exact dGet_dSet_self c1.cache key (v, now)
    · show dGet (dSet c1.cache key (v, now)) kev = none
      rw [dGet_dSet_ne c1.cache key kev _ hkne, hc1c]
      exact dGet_dDel_self_of_nodup c.cache kev hnd
    · intro j hjkev hjkey
      show dGet (dSet c1.cache key (v, now)) j = dGet c.cache j
      rw [dGet_dSet_ne c1.cache key j _ hjkey, hc1c]
      exact dGet_dDel_ne c.cache kev j hjkev

theorem C4_put_at_capacity_witness :
    dGet c4ex.cache 2 = none ∧ c4ex.cache.length = c4ex.capacity ∧
    0 < c4ex.capacity ∧ nodupKeys c4ex.cache ∧
    put c4ex 2 9 none none 3 0 = some c4ex' ∧
    (c4ex'.cache.length = c4ex.capacity ∧
     dGet c4ex'.cache 2 = some (9, 3) ∧
     ∃ kev, kev ∈ c4ex.current_keys ∧ kev ≠ 2 ∧ dGet c4ex'.cache kev = none ∧
       ∀ j, j ≠ kev → j ≠ 2 → dGet c4ex'.cache j = dGet c4ex.cache j) :=
  ⟨rfl, rfl, by decide, by simp [nodupKeys, c4ex],
   by norm_num [put, putStore, evict, evictLoop, compute_score, dGetDefault0,
     dGet, dSet, maxByLA, dDel, c4ex, c4ex', tol],
   C4_put_at_capacity Nat Nat c4ex c4ex' 2 9 none none 3 0 rfl rfl (by decide)
     (by simp [nodupKeys, c4ex])
     (by norm_num [put, putStore, evict, evictLoop, compute_score, dGetDefault0,
       dGet, dSet, maxByLA, dDel, c4ex, c4ex', tol])⟩

/-- C5: For every cache, evict on an empty cache is a no-op leaving all
state unchanged, and evict on a non-empty cache removes exactly one key,
deleting that key's value, frequency, and last-access entries together
(all three or none). -/
theorem C5_evict_noop_or_single_removal (K V : Type) [DecidableEq K]
    (c : TLCA_ACR_Cache K V) (t : Option ℚ) (loc : Option (ℚ × ℚ)) (now hr : ℚ)
    (hwf : ∀ k ∈ c.current_keys,
      (dGet c.access_freq k).isSome ∧ (dGet c.last_access k).isSome) :
    (c.cache = [] → evict c t loc now hr = some c) ∧
    (c.cache ≠ [] → ∃ c' kev, evict c t loc now hr = some c' ∧
      kev ∈ c.current_keys ∧
      c' = { c with cache := dDel c.cache kev,
                    access_freq := dDel c.access_freq kev,
                    last_access := dDel c.last_access kev } ∧
      c'.cache.length + 1 = c.cache.length) := by
  constructor
  · intro hc
    exact evict_empty c t loc now hr hc
  · intro hne
    have hsome : (evict c t loc now hr).isSome :=
      evict_isSome_of_wf c t loc now hr (fun k hk => (hwf k hk).2)
    obtain ⟨c', hev⟩ := Option.isSome_iff_exists.mp hsome
    obtain ⟨kev, hkev, hc'⟩ :=
      evict_spec_wf c c' t loc now hr hev hne (fun k hk => (hwf k hk).1)
    refine ⟨c', kev, hev, hkev, hc', ?_⟩
    have := evict_nonempty_length c c' t loc now hr hev hne
    omega

theorem C5_evict_noop_or_single_removal_witness :
    (∀ k ∈ c5ex.current_keys,
      (dGet c5ex.access_freq k).isSome ∧ (dGet c5ex.last_access k).isSome) ∧
    ((c5ex.cache = [] → evict c5ex none none 1 0 = some c5ex) ∧
     (c5ex.cache ≠ [] → ∃ c' kev, evict c5ex none none 1 0 = some c' ∧
       kev ∈ c5ex.current_keys ∧
       c' = { c5ex with cache := dDel c5ex.cache kev,
                        access_freq := dDel c5ex.access_freq kev,
                        last_access := dDel c5ex.last_access kev } ∧
       c'.cache.length + 1 = c5ex.cache.length)) :=
  ⟨by decide, C5_evict_noop_or_single_removal Nat Nat c5ex none none 1 0 (by decide)⟩

/-- C6: For every cache and every key already present in it,
put(key, value) never invokes eviction and never changes the number of keys
in the cache, even though it replaces the stored value; no other key's
entry is affected.  (The result is literally the pure store step applied to
the unchanged state, so no eviction logic ran.) -/
theorem C6_update_never_evicts (K V : Type) [DecidableEq K]
    (c : TLCA_ACR_Cache K V) (key : K) (v : V) (t : Option ℚ)
    (loc : Option (ℚ × ℚ)) (now hr : ℚ) (hmem : (dGet c.cache key).isSome) :
    put c key v t loc now hr = some (putStore c key v now) ∧
    (putStore c key v now).cache.length = c.cache.length ∧
    dGet (putStore c key v now).cache key = some (v, now) ∧
    ∀ j, j ≠ key → dGet (putStore c key v now).cache j = dGet c.cache j := by
  refine ⟨put_of_mem c key v t loc now hr hmem,
    putStore_length_of_mem c key v now hmem,
    dGet_dSet_self c.cache key (v, now), ?_⟩
  intro j hj
  exact dGet_dSet_ne c.cache key j (v, now) hj

theorem C6_update_never_evicts_witness :
    (dGet c6ex.cache 3).isSome ∧
    (put c6ex 3 99 none none 2 0 = some (putStore c6ex 3 99 2) ∧
     (putStore c6ex 3 99 2).cache.length = c6ex.cache.length ∧
     dGet (putStore c6ex 3 99 2).cache 3 = some (99, 2) ∧
     ∀ j, j ≠ 3 → dGet (putStore c6ex 3 99 2).cache j = dGet c6ex.cache j) :=
  ⟨by decide, C6_update_never_evicts Nat Nat c6ex 3 99 none none 2 0 (by decide)⟩

/-- C7: For every key present in the cache, get(key) increments that key's
access_frequency by exactly 1, sets its last_access_time to the current
time, returns the stored value, and leaves the stored value and all other
keys' entries unchanged. -/
theorem C7_get_hit (K V : Type) [DecidableEq K] (c : TLCA_ACR_Cache K V)
    (key : K) (v : V) (ts : ℚ) (t : Option ℚ) (loc : Option (ℚ × ℚ)) (now : ℚ)
    (hmem : dGet c.cache key = some (v, ts)) :
    (get c key t loc now).1 = some v ∧
    (get c key t loc now).2.cache = c.cache ∧
    dGet (get c key t loc now).2.access_freq key =
      some ((dGet c.access_freq key).getD 0 + 1) ∧
    dGet (get c key t loc now).2.last_access key = some now ∧
    ∀ j, j ≠ key →
      dGet (get c key t loc now).2.access_freq j = dGet c.access_freq j ∧
      dGet (get c key t loc now).2.last_access j = dGet c.last_access j := by
  unfold TLCA_ACR_Cache.get
  rw [hmem]
  refine ⟨rfl, rfl, dGet_dSet_self _ _ _, dGet_dSet_self _ _ _, ?_⟩
  intro j hj
  exact ⟨dGet_dSet_ne c.access_freq key j _ hj, dGet_dSet_ne c.last_access key j _ hj⟩

theorem C7_get_hit_witness :
    dGet c7ex.cache 4 = some (8, 0) ∧
    ((get c7ex 4 none none 2).1 = some 8 ∧
     (get c7ex 4 none none 2).2.cache = c7ex.cache ∧
     dGet (get c7ex 4 none none 2).2.access_freq 4 =
       some ((dGet c7ex.access_freq 4).getD 0 + 1) ∧
     dGet (get c7ex 4 none none 2).2.last_access 4 = some 2 ∧
     ∀ j, j ≠ 4 →
       dGet (get c7ex 4 none none 2).2.access_freq j = dGet c7ex.access_freq j ∧
       dGet (get c7ex 4 none none 2).2.last_access j = dGet c7ex.last_access j) :=
  ⟨rfl, C7_get_hit Nat Nat c7ex 4 8 0 none none 2 rfl⟩

/-- C8: For every key not present in the cache, get(key) returns an
absent/not-found indicator without raising, and any number of such calls
performs no mutation of any cache state (entries, frequencies, last-access
times). -/
theorem C8_get_miss (K V : Type) [DecidableEq K] (c : TLCA_ACR_Cache K V)
    (key : K) (t : Option ℚ) (loc : Option (ℚ × ℚ)) (now : ℚ)
    (habs : dGet c.cache key = none) :
    get c key t loc now = (none, c) ∧
    ∀ n, (fun st => (get st key t loc now).2)^[n] c = c := by
  have h1 : get c key t loc now = (none, c) := by
    unfold TLCA_ACR_Cache.get
    rw [habs]
  refine ⟨h1, ?_⟩
  intro n
  induction n with
  | zero => rfl
  | succ n ih =>
    rw [Function.iterate_succ_apply, h1]
    exact ih

theorem C8_get_miss_witness :
    dGet (mkCache Nat Nat 2 1 1 1 1 1).cache 5 = none ∧
    (get (mkCache Nat Nat 2 1 1 1 1 1) 5 none none 1 =
       (none, mkCache Nat Nat 2 1 1 1 1 1) ∧
     ∀ n, (fun st => (get st 5 none none 1).2)^[n] (mkCache Nat Nat 2 1 1 1 1 1) =
       mkCache Nat Nat 2 1 1 1 1 1) :=
  ⟨rfl, C8_get_miss Nat Nat (mkCache Nat Nat 2 1 1 1 1 1) 5 none none 1 rfl⟩

/-- C9: After the first completed put of a brand-new key k,
access_frequency[k] equals 1 (not 0), and for every key that is present in
the cache and has completed at least one put, access_frequency[k] >= 1
after every subsequent operation. -/
theorem C9_frequency_at_least_one (K V : Type) [DecidableEq K]
    (capacity : Nat) (alpha beta gamma delta epsilon : ℚ)
    (ops : List (Op K V)) (c : TLCA_ACR_Cache K V)
    (h : run (mkCache K V capacity alpha beta gamma delta epsilon) ops = some c) :
    (∀ k, (dGet c.cache k).isSome → ∃ n, dGet c.access_freq k = some n ∧ 1 ≤ n) ∧
    (∀ (key : K) (v : V) (t : Option ℚ) (loc : Option (ℚ × ℚ)) (now hr : ℚ)
       (c' : TLCA_ACR_Cache K V), dGet c.cache key = none →
       put c key v t loc now hr = some c' → dGet c'.access_freq key = some 1) := by
  have hInv : Inv c := Inv_run ops (mkCache K V capacity alpha beta gamma delta epsilon)
    c (Inv_mkCache K V capacity alpha beta gamma delta epsilon) h
  constructor
  · intro k hk
    exact ((hInv.1 k hk).1)
  · intro key v t loc now hr c' hnew hput
    exact put_new_freq_one c c' key v t loc now hr hInv hnew hput

theorem C9_frequency_at_least_one_witness :
    run (mkCache Nat Nat 2 1 1 1 1 1) [] = some (mkCache Nat Nat 2 1 1 1 1 1) ∧
    ((∀ k, (dGet (mkCache Nat Nat 2 1 1 1 1 1).cache k).isSome →
        ∃ n, dGet (mkCache Nat Nat 2 1 1 1 1 1).access_freq k = some n ∧ 1 ≤ n) ∧
     (∀ (key : Nat) (v : Nat) (t : Option ℚ) (loc : Option (ℚ × ℚ)) (now hr : ℚ)
        (c' : TLCA_ACR_Cache Nat Nat),
        dGet (mkCache Nat Nat 2 1 1 1 1 1).cache key = none →
        put (mkCache Nat Nat 2 1 1 1 1 1) key v t loc now hr = some c' →
        dGet c'.access_freq key = some 1)) :=
  ⟨rfl, C9_frequency_at_least_one Nat Nat 2 1 1 1 1 1 [] (mkCache Nat Nat 2 1 1 1 1 1) rfl⟩

/-- C10: For every key not present in the cache (in any state reachable
through the public operations), a direct external call to compute_score(key)
raises an error (a missing-key lookup failure on the last-access map) rather
than returning a score, and before raising it has already mutated state by
inserting a default access_frequency entry of 0 for that key — the cache
state is not unchanged on this error. -/
theorem C10_compute_score_missing_key (K V : Type) [DecidableEq K]
    (capacity : Nat) (alpha beta gamma delta epsilon : ℚ)
    (ops : List (Op K V)) (c : TLCA_ACR_Cache K V) (key : K)
    (t : Option ℚ) (loc : Option (ℚ × ℚ)) (now hr : ℚ)
    (h : run (mkCache K V capacity alpha beta gamma delta epsilon) ops = some c)
    (habs : dGet c.cache key = none) :
    (compute_score c key t loc now hr).1 = none ∧
    (compute_score c key t loc now hr).2 =
      { c with access_freq := c.access_freq ++ [(key, 0)] } ∧
    dGet c.access_freq key = none ∧
    dGet ((compute_score c key t loc now hr).2).access_freq key = some 0 := by
  have hInv : Inv c := Inv_run ops (mkCache K V capacity alpha beta gamma delta epsilon)
    c (Inv_mkCache K V capacity alpha beta gamma delta epsilon) h
  obtain ⟨hf, hl⟩ := hInv.2.1 key habs
  have hdd : dGetDefault0 c.access_freq key = (0, c.access_freq ++ [(key, 0)]) := by
    unfold dGetDefault0
    rw [hf]
  have h2 : (compute_score c key t loc now hr).2 =
      { c with access_freq := c.access_freq ++ [(key, 0)] } := by
    unfold compute_score
    rw [hl, hdd]
  refine ⟨?_, h2, hf, ?_⟩
  · unfold compute_score
    rw [hl, hdd]
  · rw [h2]
    show dGet (c.access_freq ++ [(key, 0)]) key = some 0
    rw [dGet_append_of_none c.access_freq key key 0 hf, if_pos rfl]

theorem C10_compute_score_missing_key_witness :
    run (mkCache Nat Nat 2 1 1 1 1 1) [] = some (mkCache Nat Nat 2 1 1 1 1 1) ∧
    dGet (mkCache Nat Nat 2 1 1 1 1 1).cache 9 = none ∧
    ((compute_score (mkCache Nat Nat 2 1 1 1 1 1) 9 none none 1 0).1 = none ∧
     (compute_score (mkCache Nat Nat 2 1 1 1 1 1) 9 none none 1 0).2 =
       { mkCache Nat Nat 2 1 1 1 1 1 with
           access_freq := (mkCache Nat Nat 2 1 1 1 1 1).access_freq ++ [(9, 0)] } ∧
     dGet (mkCache Nat Nat 2 1 1 1 1 1).access_freq 9 = none ∧
     dGet ((compute_score (mkCache Nat Nat 2 1 1 1 1 1) 9 none none 1 0).2).access_freq 9 =
       some 0) :=
  ⟨rfl, rfl,
   C10_compute_score_missing_key Nat Nat 2 1 1 1 1 1 []
     (mkCache Nat Nat 2 1 1 1 1 1) 9 none none 1 0 rfl rfl⟩

end TLCAACR
